import Mathlib

set_option autoImplicit false

/-!
Verification of the synchronized multi-stream replay engine of
`solanastreaming-cli` (`cmd/simulate.go`).  The merge core
(`RunSimulation`), the starting-slot scan (`getStartingSlot`), the
per-stream decoding channels (`streamFromFile`) and the subscription
handling of `Execute` are embedded shallowly below; goroutine/channel
interaction is represented by the list of rows a channel will deliver
plus a `closes` flag, and the single-threaded merge loop by structural
recursion with an explicit tick budget (`fuel`).
-/

namespace SSim

/-- The decoded shape of one archive line (Go struct `DataFormat`):
the temporal key `slot` and the two category discriminators.
`pair = true` models a present, non-null `pair` field
(Go `data.Pair != nil`), likewise `swap`. -/
structure DataFormat where
  slot : Nat
  pair : Bool
  swap : Bool
deriving DecidableEq

/-- One line of a per-category log, as the merge loop classifies a received
row: zero-length rows, rows that `json.Unmarshal` rejects, and rows that
decode to a `DataFormat`.  `raw` identifies the verbatim bytes of the row
(the code forwards them unchanged as the `params` payload). -/
inductive LogLine where
  | empty : LogLine
  | malformed (raw : Nat) : LogLine
  | record (data : DataFormat) (raw : Nat) : LogLine
deriving DecidableEq

/-- The subscription state `RunSimulation` reads: `o.pairsSubID` and
`o.swapsSubID`; the zero value means "not subscribed". -/
structure SubConfig where
  pairsSubID : Nat
  swapsSubID : Nat
deriving DecidableEq

/-- One envelope sent to `o.outputFeed` (Go `JSONRPC`): the method string,
the subscription id it is tagged with, and the payload row `raw`.  The
field `slot` is the decoded `data.Slot` of the emitted row, carried as a
ghost observation for stating ordering properties. -/
structure Emission where
  method : String
  subscriptionID : Nat
  slot : Nat
  raw : Nat
deriving DecidableEq

/-- The emission site of `RunSimulation`: two independent `if` statements,
one per category; each fires when its subscription id is non-zero and the
record's discriminator is present. -/
def emitsFor (cfg : SubConfig) (d : DataFormat) (raw : Nat) : List Emission :=
  (if cfg.pairsSubID != 0 && d.pair then
    [⟨"newPairNotification", cfg.pairsSubID, d.slot, raw⟩] else []) ++
  (if cfg.swapsSubID != 0 && d.swap then
    [⟨"swapNotification", cfg.swapsSubID, d.slot, raw⟩] else [])

/-- The merge-loop state of one stream `i`: `pending` holds the rows its
decoding goroutine will still deliver on `dataChans[i]`; `closes` says
whether that goroutine eventually closes the channel (always true for
`streamFromFile`, which closes after scanning the file; false models a
source that never terminates); `buffer` is the single lookahead row
`buffers[i]` (`none` standing for the zero-length slice); `done` is
`dones[i]`. -/
structure StreamState where
  pending : List LogLine
  closes : Bool
  buffer : Option LogLine
  done : Bool
deriving DecidableEq

/-- Rows still to be consumed by stream `s`, lookahead buffer first. -/
def remainingOf (s : StreamState) : List LogLine :=
  s.buffer.toList ++ s.pending

/-- Result of draining one stream's channel for one cursor tick:
`stop buf rest sawEnd out` means the inner loop broke out normally,
leaving `buf` in the lookahead buffer and `rest` undelivered, having set
`dones[i]` iff `sawEnd`; `fail` is the fatal `cant unmarshal event`
return; `block` is a receive from an empty channel that is never closed
(the goroutine-free model of the merge blocking forever). -/
inductive DrainRes where
  | stop (buf : Option LogLine) (rest : List LogLine) (sawEnd : Bool) (out : List Emission)
  | fail (out : List Emission)
  | block (out : List Emission)
deriving DecidableEq

/-- The inner `for` loop of `RunSimulation` for one stream, from the point
where rows come from the channel (the lookahead buffer having been handled
by `drainStream`): a zero-length row sets the done flag and breaks; an
undecodable row aborts the whole replay; a row beyond the cursor is stored
in the lookahead buffer and breaks; a due row is emitted and the loop
continues.  Receiving on an exhausted channel yields the zero-length row
if the channel was closed and blocks otherwise. -/
def drainList (cfg : SubConfig) (c : Nat) (closes : Bool) : List LogLine → DrainRes
  | [] => if closes then .stop none [] true [] else .block []
  | .empty :: rest => .stop none rest true []
  | .malformed _ :: _ => .fail []
  | .record d raw :: rest =>
    if c < d.slot then .stop (some (.record d raw)) rest false []
    else
      match drainList cfg c closes rest with
      | .stop b r e out => .stop b r e (emitsFor cfg d raw ++ out)
      | .fail out => .fail (emitsFor cfg d raw ++ out)
      | .block out => .block (emitsFor cfg d raw ++ out)

/-- Result of one stream's processing for one tick: updated state plus the
rows it sent to the output feed, or the fatal/blocking exits. -/
inductive StreamRes where
  | ok (s : StreamState) (out : List Emission)
  | fail (out : List Emission)
  | block (out : List Emission)
deriving DecidableEq

/-- The body of `for i, dataChan := range dataChans` for one stream: the
buffered row is used before the channel is read; a buffered row beyond the
cursor leaves everything untouched, a due buffered row is emitted (the
buffer becoming the zero-length slice) and the channel is then drained.
The code never buffers a zero-length or undecodable row (see `drainList`),
so those two buffer cases are unreachable junk states, mapped to the
nearest behaviour. -/
def drainStream (cfg : SubConfig) (c : Nat) (s : StreamState) : StreamRes :=
  match s.buffer with
  | some (.record d raw) =>
    if c < d.slot then .ok s []
    else
      match drainList cfg c s.closes s.pending with
      | .stop b r e out => .ok ⟨r, s.closes, b, s.done || e⟩ (emitsFor cfg d raw ++ out)
      | .fail out => .fail (emitsFor cfg d raw ++ out)
      | .block out => .block (emitsFor cfg d raw ++ out)
  | some .empty => .ok { s with buffer := none, done := true } []
  | some (.malformed _) => .fail []
  | none =>
    match drainList cfg c s.closes s.pending with
    | .stop b r e out => .ok ⟨r, s.closes, b, s.done || e⟩ out
    | .fail out => .fail out
    | .block out => .block out

/-- Result of one whole cursor tick over all streams. -/
inductive TickRes where
  | ok (ss : List StreamState) (out : List Emission)
  | fail (out : List Emission)
  | block (out : List Emission)
deriving DecidableEq

/-- One cursor tick: every stream is processed in declared order (the loop
has no guard on `dones[i]`, so done streams are drained again), and the
emissions are concatenated in that order.  A decode error aborts
immediately; a blocked receive blocks the whole single-threaded merge. -/
def tick (cfg : SubConfig) (c : Nat) : List StreamState → TickRes
  | [] => .ok [] []
  | s :: rest =>
    match drainStream cfg c s with
    | .ok s' out =>
      match tick cfg c rest with
      | .ok ss out' => .ok (s' :: ss) (out ++ out')
      | .fail out' => .fail (out ++ out')
      | .block out' => .block (out ++ out')
    | .fail out => .fail out
    | .block out => .block out

/-- Result of the per-segment merge loop.  `ok` carries the final value of
`slot`, the final stream states and the emitted rows (cursor and states
are ghost observations; Go keeps them in local variables).  `fail` and
`block` carry the cursor at which the loop was abandoned. -/
inductive MergeRes where
  | ok (endCursor : Nat) (ss : List StreamState) (out : List Emission)
  | fail (endCursor : Nat) (out : List Emission)
  | block (endCursor : Nat) (out : List Emission)
  | outOfFuel (out : List Emission)
deriving DecidableEq

/-- The per-segment merge loop (`for { ... }` in `RunSimulation`): run one
tick; if afterwards every `dones[i]` is set, break with `slot` unchanged;
otherwise `slot++` and repeat.  `fuel` bounds the number of ticks the
model executes; the Go loop is unbounded, and `fuelNeed` below computes
an always-sufficient budget. -/
def runMergeLoop (cfg : SubConfig) : Nat → Nat → List StreamState → MergeRes
  | 0, _, _ => .outOfFuel []
  | fuel + 1, c, ss =>
    match tick cfg c ss with
    | .ok ss' out =>
      if ss'.all (fun s => s.done) then .ok c ss' out
      else
        match runMergeLoop cfg fuel (c + 1) ss' with
        | .ok ce fs out' => .ok ce fs (out ++ out')
        | .fail ce out' => .fail ce (out ++ out')
        | .block ce out' => .block ce (out ++ out')
        | .outOfFuel out' => .outOfFuel (out ++ out')
    | .fail out => .fail c out
    | .block out => .block c out

/-- The successive cursor values at which the merge loop executes a tick
(same recursion structure as `runMergeLoop`). -/
def mergeTrace (cfg : SubConfig) : Nat → Nat → List StreamState → List Nat
  | 0, _, _ => []
  | fuel + 1, c, ss =>
    match tick cfg c ss with
    | .ok ss' _ =>
      if ss'.all (fun s => s.done) then [c]
      else c :: mergeTrace cfg fuel (c + 1) ss'
    | .fail _ => [c]
    | .block _ => [c]

/-- Go `if data.Slot < startingSlot || startingSlot == 0`, folded over the
first rows of the files; the accumulator starts at the zero value of
`var startingSlot uint64`. -/
def startingSlotStep (acc : Nat) (d : DataFormat) : Nat :=
  if d.slot < acc || acc == 0 then d.slot else acc

/-- `getStartingSlot`: scan only the first line of every unzipped file of
the first segment; a first line that fails to decode (including a
zero-length line) aborts the replay; a file with no lines at all is
skipped (`scanner.Scan()` immediately returns false). -/
def getStartingSlot : Nat → List (List LogLine) → Except Unit Nat
  | acc, [] => .ok acc
  | acc, [] :: rest => getStartingSlot acc rest
  | _, (.empty :: _) :: _ => .error ()
  | _, (.malformed _ :: _) :: _ => .error ()
  | acc, (.record d _ :: _) :: rest => getStartingSlot (startingSlotStep acc d) rest

/-- Fresh per-segment stream state: `streamFromFile` always closes its
channel after delivering the file's lines, and `RunSimulation` re-makes
the buffer and done arrays for every data file. -/
def initStream (log : List LogLine) : StreamState := ⟨log, true, none, false⟩

/-- Result of a whole replay (`RunSimulation`).  `fail` and `block` carry
the cursor at which the replay was abandoned as a ghost observation. -/
inductive SimRes where
  | ok (endCursor : Nat) (out : List Emission)
  | fail (endCursor : Nat) (out : List Emission)
  | block (endCursor : Nat) (out : List Emission)
  | outOfFuel (out : List Emission)
deriving DecidableEq

def SimRes.prependOut (pre : List Emission) : SimRes → SimRes
  | .ok c out => .ok c (pre ++ out)
  | .fail c out => .fail c (pre ++ out)
  | .block c out => .block c (pre ++ out)
  | .outOfFuel out => .outOfFuel (pre ++ out)

/-- The data-file loop of `RunSimulation` after the starting slot is known:
each segment's logs get fresh channels, buffers and done flags, while the
cursor `slot` is carried from one segment into the next (it is declared
outside the loop and never reset). -/
def runSegments (cfg : SubConfig) (fuel : Nat) : Nat → List (List (List LogLine)) → SimRes
  | c, [] => .ok c []
  | c, seg :: rest =>
    match runMergeLoop cfg fuel c (seg.map initStream) with
    | .ok c' _ out => SimRes.prependOut out (runSegments cfg fuel c' rest)
    | .fail ce out => .fail ce out
    | .block ce out => .block ce out
    | .outOfFuel out => .outOfFuel out

/-- `RunSimulation`: with no data files the loop body never runs and `slot`
stays 0; otherwise the starting slot is computed from the first segment
only (`if dataFileNum == 0`) and the segments are merged in order. -/
def runSimulation (cfg : SubConfig) (fuel : Nat) : List (List (List LogLine)) → SimRes
  | [] => .ok 0 []
  | seg :: rest =>
    match getStartingSlot 0 seg with
    | .error _ => .fail 0 []
    | .ok start => runSegments cfg fuel start (seg :: rest)

/-! ### Observation helpers -/

def MergeRes.emitted : MergeRes → List Emission
  | .ok _ _ out => out
  | .fail _ out => out
  | .block _ out => out
  | .outOfFuel out => out

def SimRes.emitted : SimRes → List Emission
  | .ok _ out => out
  | .fail _ out => out
  | .block _ out => out
  | .outOfFuel out => out

/-- The cursor at which the replay stopped (none if the model ran out of
fuel). -/
def SimRes.cursor? : SimRes → Option Nat
  | .ok c _ => some c
  | .fail c _ => some c
  | .block c _ => some c
  | .outOfFuel _ => none

/-! ### Line and log classification helpers -/

def lineSlot : LogLine → Nat
  | .record d _ => d.slot
  | _ => 0

def isRecordLine : LogLine → Bool
  | .record _ _ => true
  | _ => false

def isEmptyLine : LogLine → Bool
  | .empty => true
  | _ => false

def isMalformedLine : LogLine → Bool
  | .malformed _ => true
  | _ => false

/-- Every line of the log is a decodable record. -/
def pureLog (log : List LogLine) : Bool := log.all isRecordLine

/-- Adjacent temporal keys are non-decreasing. -/
def monoLog : List LogLine → Bool
  | a :: b :: rest => (decide (lineSlot a ≤ lineSlot b)) && monoLog (b :: rest)
  | _ => true

/-- Emissions produced by one line under `cfg`. -/
def lineEmit (cfg : SubConfig) : LogLine → List Emission
  | .record d raw => emitsFor cfg d raw
  | _ => []

/-- Canonical output of one cursor tick: the records with key exactly `c`,
in stream-declaration order then log order. -/
def tickSpecOut (cfg : SubConfig) (c : Nat) (logs : List (List LogLine)) : List Emission :=
  logs.flatMap (fun log => (log.filter (fun l => lineSlot l == c)).flatMap (lineEmit cfg))

/-- Canonical merge output for ticks `c0, c0+1, ..., c0+n-1`. -/
def mergeSpecOut (cfg : SubConfig) (c0 n : Nat) (logs : List (List LogLine)) : List Emission :=
  (List.range' c0 n).flatMap (fun c => tickSpecOut cfg c logs)

/-- Adjacent emissions have non-decreasing temporal keys. -/
def slotsSorted : List Emission → Bool
  | a :: b :: rest => (decide (a.slot ≤ b.slot)) && slotsSorted (b :: rest)
  | _ => true

/-- The key of a log's first row, when that row is a record. -/
def firstSlot? : List LogLine → Option Nat
  | .record d _ :: _ => some d.slot
  | _ => none

def firstSlots (logs : List (List LogLine)) : List Nat := logs.filterMap firstSlot?

/-- Spec-side definition, following the spec's words "the minimum temporal
key among the first record of each category stream", for comparison with
`getStartingSlot`. -/
def minFirstKeySpec (logs : List (List LogLine)) : Nat :=
  match firstSlots logs with
  | [] => 0
  | x :: xs => xs.foldl Nat.min x

/-- All temporal keys of the records of a segment. -/
def segSlots (seg : List (List LogLine)) : List Nat :=
  seg.flatMap (fun log => (log.filter isRecordLine).map lineSlot)

/-! ### Fuel bookkeeping -/

def streamLines (s : StreamState) : Nat := (remainingOf s).length

def maxSlotList (l : List LogLine) : Nat :=
  l.foldr (fun x m => Nat.max (lineSlot x) m) 0

def ssLines (ss : List StreamState) : Nat := (ss.map streamLines).sum

def ssMaxSlot (ss : List StreamState) : Nat :=
  (ss.map (fun s => maxSlotList (remainingOf s))).foldr Nat.max 0

/-- A tick budget that is always enough for `runMergeLoop` to leave the
loop (normally, fatally or by blocking) rather than run out of fuel. -/
def fuelNeed (c : Nat) (ss : List StreamState) : Nat :=
  (ssMaxSlot ss + 1 - c) + ssLines ss + 1

/-! ### The session (`Execute`) model -/

/-- The JSONRPC methods the websocket handler of `Execute` distinguishes. -/
inductive Request where
  | newPairSub : Request
  | swapSub : Request
  | startSim : Request
  | unknown : Request
deriving DecidableEq

/-- The fields of `SimulateTask` the handler mutates.  `NewSimulateTask`
sets `nextSubID = 1`; the two subscription ids start at their zero
value. -/
structure SessionState where
  nextSubID : Nat
  pairsSubID : Nat
  swapsSubID : Nat
deriving DecidableEq

def initialSession : SessionState := ⟨1, 0, 0⟩

/-- One message of the handler loop: a subscribe request stores the current
`nextSubID` in the matching field, answers with it, and then increments
`nextSubID`; any other method hands out no id. -/
def handleRequest (st : SessionState) : Request → SessionState × Option Nat
  | .newPairSub => (⟨st.nextSubID + 1, st.nextSubID, st.swapsSubID⟩, some st.nextSubID)
  | .swapSub => (⟨st.nextSubID + 1, st.pairsSubID, st.nextSubID⟩, some st.nextSubID)
  | .startSim => (st, none)
  | .unknown => (st, none)

/-- The subscription ids handed out over one session: the handler answers
requests until `startSimulation`, which runs the simulation and then
returns from the handler, so no later request is served. -/
def sessionIDs : SessionState → List Request → List Nat
  | _, [] => []
  | _, .startSim :: _ => []
  | st, r :: rest =>
    match handleRequest st r with
    | (st', some i) => i :: sessionIDs st' rest
    | (st', none) => sessionIDs st' rest

/-- Number of subscribe requests served before `startSimulation`. -/
def subRequestCount : List Request → Nat
  | [] => 0
  | .startSim :: _ => 0
  | .newPairSub :: rest => subRequestCount rest + 1
  | .swapSub :: rest => subRequestCount rest + 1
  | .unknown :: rest => subRequestCount rest

/-! ### More classification helpers used by the claims -/

/-- The log contains a row that fails to decode and that is not shielded by
an earlier zero-length row (so the merge is bound to reach it before the
stream can ever report itself done). -/
def unshieldedMalformed : List LogLine → Bool
  | [] => false
  | .empty :: _ => false
  | .malformed _ :: _ => true
  | .record _ _ :: rest => unshieldedMalformed rest

/-- The stream never yields the end-of-stream sentinel: its channel is never
closed, no zero-length row is among its rows, and it has not been marked
done. -/
def neverYields (s : StreamState) : Bool :=
  !s.closes && (remainingOf s).all (fun x => !isEmptyLine x) && !s.done

/-- The lookahead buffer holds either nothing or a decoded record (the only
states the code can reach). -/
def bufferOK : Option LogLine → Bool
  | none => true
  | some (.record _ _) => true
  | some _ => false

def ssCloses (ss : List StreamState) : Bool := ss.all (fun s => s.closes)

def ssBufferOK (ss : List StreamState) : Bool := ss.all (fun s => bufferOK s.buffer)

def ssNoMalformed (ss : List StreamState) : Bool :=
  ss.all (fun s => (remainingOf s).all (fun x => !isMalformedLine x))

/-- A tick budget sufficient for a whole segment whatever the entry cursor. -/
def segFuel (seg : List (List LogLine)) : Nat :=
  ssMaxSlot (seg.map initStream) + ssLines (seg.map initStream) + 2

def archiveFuel (segs : List (List (List LogLine))) : Nat :=
  (segs.map segFuel).foldr Nat.max 0

def DrainRes.emitted : DrainRes → List Emission
  | .stop _ _ _ out => out
  | .fail out => out
  | .block out => out

def StreamRes.emitted : StreamRes → List Emission
  | .ok _ out => out
  | .fail out => out
  | .block out => out

def TickRes.emitted : TickRes → List Emission
  | .ok _ out => out
  | .fail out => out
  | .block out => out

def MergeRes.isOutOfFuel : MergeRes → Bool
  | .outOfFuel _ => true
  | _ => false

/-- The cursor at which the merge loop stopped (none if it ran out of the
modelling fuel). -/
def MergeRes.cursor? : MergeRes → Option Nat
  | .ok ce _ _ => some ce
  | .fail ce _ => some ce
  | .block ce _ => some ce
  | .outOfFuel _ => none

/-- Prepend emissions already sent to whatever the rest of the merge loop
produces. -/
def MergeRes.after (out : List Emission) : MergeRes → MergeRes
  | .ok ce fs o => .ok ce fs (out ++ o)
  | .fail ce o => .fail ce (out ++ o)
  | .block ce o => .block ce (out ++ o)
  | .outOfFuel o => .outOfFuel (out ++ o)

/-- An emission is well-formed for `cfg` when it is a pair notification
tagged with the pair subscription id, or a swap notification tagged with
the swap subscription id, the id being non-zero either way. -/
def emissionWF (cfg : SubConfig) (e : Emission) : Prop :=
  (e.method = "newPairNotification" ∧ e.subscriptionID = cfg.pairsSubID ∧ cfg.pairsSubID ≠ 0) ∨
  (e.method = "swapNotification" ∧ e.subscriptionID = cfg.swapsSubID ∧ cfg.swapsSubID ≠ 0)

/-! ### Emission-erased results, for stating that control flow does not
depend on the subscription configuration -/

def DrainRes.erase : DrainRes → DrainRes
  | .stop b r e _ => .stop b r e []
  | .fail _ => .fail []
  | .block _ => .block []

def StreamRes.erase : StreamRes → StreamRes
  | .ok s _ => .ok s []
  | .fail _ => .fail []
  | .block _ => .block []

def TickRes.erase : TickRes → TickRes
  | .ok ss _ => .ok ss []
  | .fail _ => .fail []
  | .block _ => .block []

def MergeRes.erase : MergeRes → MergeRes
  | .ok ce ss _ => .ok ce ss []
  | .fail ce _ => .fail ce []
  | .block ce _ => .block ce []
  | .outOfFuel _ => .outOfFuel []

def SimRes.erase : SimRes → SimRes
  | .ok ce _ => .ok ce []
  | .fail ce _ => .fail ce []
  | .block ce _ => .block ce []
  | .outOfFuel _ => .outOfFuel []

/-! ### The invariant tying a stream state to its original log -/

/-- Stream `s` is the faithful residue of `log` at cursor `c`: the channel
closes, the buffer holds nothing or a record, what remains to be consumed
is exactly the rows of `log` with key at least `c` (as a suffix), and the
done flag can be set only once everything has been consumed. -/
def Tracks (c : Nat) (log : List LogLine) (s : StreamState) : Prop :=
  s.closes = true ∧ bufferOK s.buffer = true ∧
  remainingOf s = log.dropWhile (fun x => decide (lineSlot x < c)) ∧
  (s.done = true → remainingOf s = [])

def TracksAll (c : Nat) (logs : List (List LogLine)) (ss : List StreamState) : Prop :=
  List.Forall₂ (Tracks c) logs ss

/-- Premises on an archive segment used by the ordering theorems. -/
def segPure (seg : List (List LogLine)) : Prop := ∀ log ∈ seg, pureLog log = true

def segMono (seg : List (List LogLine)) : Prop := ∀ log ∈ seg, monoLog log = true

def allSlotsGE (c : Nat) (seg : List (List LogLine)) : Prop := ∀ a ∈ segSlots seg, c ≤ a

/-- Consecutive (and transitively, all later) segments carry keys at least
as large as all keys of earlier segments. -/
def segsOrdered (segs : List (List (List LogLine))) : Prop :=
  List.Pairwise (fun s1 s2 => ∀ a ∈ segSlots s1, ∀ b ∈ segSlots s2, a ≤ b) segs

/-! ### Facts about the emission site -/

theorem emitsFor_slot {cfg : SubConfig} {d : DataFormat} {raw : Nat} {e : Emission}
    (h : e ∈ emitsFor cfg d raw) : e.slot = d.slot := by
  unfold emitsFor at h
  rcases List.mem_append.1 h with h' | h' <;> split at h' <;> simp_all

theorem emitsFor_wf {cfg : SubConfig} {d : DataFormat} {raw : Nat} {e : Emission}
    (h : e ∈ emitsFor cfg d raw) : emissionWF cfg e := by
  unfold emitsFor at h
  rcases List.mem_append.1 h with h' | h'
  · by_cases hp : (cfg.pairsSubID != 0 && d.pair) = true
    · rw [if_pos hp] at h'
      simp only [List.mem_singleton] at h'
      subst h'
      exact Or.inl ⟨rfl, rfl, by simpa using (Bool.and_eq_true_iff.1 hp).1⟩
    · rw [if_neg hp] at h'
      cases h'
  · by_cases hs : (cfg.swapsSubID != 0 && d.swap) = true
    · rw [if_pos hs] at h'
      simp only [List.mem_singleton] at h'
      subst h'
      exact Or.inr ⟨rfl, rfl, by simpa using (Bool.and_eq_true_iff.1 hs).1⟩
    · rw [if_neg hs] at h'
      cases h'

theorem emitsFor_zero (d : DataFormat) (raw : Nat) : emitsFor ⟨0, 0⟩ d raw = [] := by
  simp [emitsFor]

/-! ### Facts about pure and monotone logs -/

theorem pureLog_cons {a : LogLine} {l : List LogLine} (h : pureLog (a :: l) = true) :
    isRecordLine a = true ∧ pureLog l = true := by
  simpa [pureLog] using h

theorem monoLog_cons {a : LogLine} {l : List LogLine} (h : monoLog (a :: l) = true) :
    monoLog l = true := by
  cases l with
  | nil => rfl
  | cons b t =>
    have h' : (lineSlot a ≤ lineSlot b) ∧ monoLog (b :: t) = true := by
      simpa [monoLog] using h
    exact h'.2

theorem monoLog_head_le {a : LogLine} {l : List LogLine} (h : monoLog (a :: l) = true)
    {x : LogLine} (hx : x ∈ l) : lineSlot a ≤ lineSlot x := by
  induction l generalizing a with
  | nil => cases hx
  | cons b t ih =>
    have h' : lineSlot a ≤ lineSlot b ∧ monoLog (b :: t) = true := by
      simpa [monoLog] using h
    rcases List.mem_cons.1 hx with rfl | hx'
    · exact h'.1
    · exact le_trans h'.1 (ih h'.2 hx')

theorem monoLog_dropWhile {p : LogLine → Bool} {l : List LogLine}
    (h : monoLog l = true) : monoLog (l.dropWhile p) = true := by
  induction l with
  | nil => rfl
  | cons a t ih =>
    by_cases hp : p a = true
    · simpa [List.dropWhile_cons, hp] using ih (monoLog_cons h)
    · simpa [List.dropWhile_cons, hp] using h

theorem pureLog_sub {l l' : List LogLine} (h : pureLog l = true)
    (hsub : ∀ x ∈ l', x ∈ l) : pureLog l' = true := by
  simp only [pureLog, List.all_eq_true] at h ⊢
  exact fun x hx => h x (hsub x hx)

/-! ### Facts about `drainList` -/

theorem drainList_stop_sublist {cfg : SubConfig} {c : Nat} {closes : Bool}
    {l : List LogLine} {b : Option LogLine} {r : List LogLine} {e : Bool}
    {out : List Emission} (h : drainList cfg c closes l = .stop b r e out) :
    (b.toList ++ r).Sublist l := by
  induction l generalizing out with
  | nil =>
    simp only [drainList] at h
    split at h <;> cases h
    simp
  | cons hd tl ih =>
    cases hd with
    | empty =>
      simp only [drainList] at h
      cases h
      simp [List.sublist_cons_self]
    | malformed raw => simp only [drainList] at h; cases h
    | record d raw =>
      simp only [drainList] at h
      split at h
      · cases h
        simp
      · cases hin : drainList cfg c closes tl with
        | stop b' r' e' out' =>
          rw [hin] at h
          cases h
          exact (ih hin).cons _
        | fail out' => rw [hin] at h; cases h
        | block out' => rw [hin] at h; cases h

theorem drainList_emitted_le {cfg : SubConfig} {c : Nat} {closes : Bool}
    {l : List LogLine} : ∀ e ∈ (drainList cfg c closes l).emitted, e.slot ≤ c := by
  induction l with
  | nil =>
    intro e he
    simp only [drainList] at he
    split at he <;> simp [DrainRes.emitted] at he
  | cons hd tl ih =>
    intro e he
    cases hd with
    | empty => simp [drainList, DrainRes.emitted] at he
    | malformed raw => simp [drainList, DrainRes.emitted] at he
    | record d raw =>
      simp only [drainList] at he
      split at he
      · simp [DrainRes.emitted] at he
      · rename_i hslot
        have hle : d.slot ≤ c := Nat.le_of_not_lt hslot
        cases hin : drainList cfg c closes tl <;> rw [hin] at he <;>
          simp only [DrainRes.emitted, List.mem_append] at he <;>
          rcases he with he | he
        · exact (emitsFor_slot he) ▸ hle
        · exact ih e (by rw [hin]; exact he)
        · exact (emitsFor_slot he) ▸ hle
        · exact ih e (by rw [hin]; exact he)
        · exact (emitsFor_slot he) ▸ hle
        · exact ih e (by rw [hin]; exact he)

theorem drainList_noBlock {cfg : SubConfig} {c : Nat} {l : List LogLine}
    {out : List Emission} (h : drainList cfg c true l = .block out) : False := by
  induction l generalizing out with
  | nil => simp [drainList] at h
  | cons hd tl ih =>
    cases hd with
    | empty => simp [drainList] at h
    | malformed raw => simp [drainList] at h
    | record d raw =>
      simp only [drainList] at h
      split at h
      · cases h
      · cases hin : drainList cfg c true tl <;> rw [hin] at h <;> cases h
        exact ih hin

theorem drainList_noFail {cfg : SubConfig} {c : Nat} {closes : Bool} {l : List LogLine}
    (hm : l.all (fun x => !isMalformedLine x) = true)
    {out : List Emission} (h : drainList cfg c closes l = .fail out) : False := by
  induction l generalizing out with
  | nil => simp only [drainList] at h; split at h <;> cases h
  | cons hd tl ih =>
    cases hd with
    | empty => simp [drainList] at h
    | malformed raw => simp [isMalformedLine] at hm
    | record d raw =>
      have hm' : tl.all (fun x => !isMalformedLine x) = true := by
        simpa [isMalformedLine] using hm
      simp only [drainList] at h
      split at h
      · cases h
      · cases hin : drainList cfg c closes tl <;> rw [hin] at h <;> cases h
        exact ih hm' hin

theorem drainList_stop_false {cfg : SubConfig} {c : Nat} {closes : Bool}
    {l : List LogLine} {b : Option LogLine} {r : List LogLine}
    {out : List Emission} (h : drainList cfg c closes l = .stop b r false out) :
    ∃ d raw, b = some (LogLine.record d raw) ∧ c < d.slot := by
  induction l generalizing out with
  | nil => simp only [drainList] at h; split at h <;> cases h
  | cons hd tl ih =>
    cases hd with
    | empty => simp only [drainList] at h; cases h
    | malformed raw => simp only [drainList] at h; cases h
    | record d raw =>
      simp only [drainList] at h
      split at h
      · rename_i hslot
        cases h
        exact ⟨d, raw, rfl, hslot⟩
      · cases hin : drainList cfg c closes tl <;> rw [hin] at h <;> cases h
        exact ih hin

theorem drainList_allLE_sawEnd {cfg : SubConfig} {c : Nat} {closes : Bool}
    {l : List LogLine} (hall : ∀ x ∈ l, lineSlot x ≤ c)
    {b : Option LogLine} {r : List LogLine} {e : Bool} {out : List Emission}
    (h : drainList cfg c closes l = .stop b r e out) : e = true := by
  induction l generalizing out with
  | nil =>
    simp only [drainList] at h
    split at h <;> cases h
    rfl
  | cons hd tl ih =>
    cases hd with
    | empty => simp only [drainList] at h; cases h; rfl
    | malformed raw => simp only [drainList] at h; cases h
    | record d raw =>
      have hd' : d.slot ≤ c := by simpa [lineSlot] using hall _ (List.mem_cons_self _ _)
      simp only [drainList] at h
      split at h
      · rename_i hslot; exact absurd hd' (Nat.not_le_of_lt hslot)
      · cases hin : drainList cfg c closes tl <;> rw [hin] at h <;> cases h
        exact ih (fun x hx => hall x (List.mem_cons_of_mem _ hx)) hin

theorem drainList_unshielded {cfg : SubConfig} {c : Nat} {closes : Bool}
    {l : List LogLine} (h : unshieldedMalformed l = true) :
    (∃ out, drainList cfg c closes l = .fail out) ∨
    (∃ b r out, drainList cfg c closes l = .stop b r false out ∧
      unshieldedMalformed (b.toList ++ r) = true) := by
  induction l with
  | nil => simp [unshieldedMalformed] at h
  | cons hd tl ih =>
    cases hd with
    | empty => simp [unshieldedMalformed] at h
    | malformed raw => exact Or.inl ⟨[], by simp [drainList]⟩
    | record d raw =>
      have h' : unshieldedMalformed tl = true := by simpa [unshieldedMalformed] using h
      by_cases hslot : c < d.slot
      · refine Or.inr ⟨some (.record d raw), tl, [], ?_, ?_⟩
        · simp [drainList, hslot]
        · simpa [unshieldedMalformed] using h'
      · rcases ih h' with ⟨out, hout⟩ | ⟨b, r, out, hout, hun⟩
        · exact Or.inl ⟨emitsFor cfg d raw ++ out, by simp [drainList, hslot, hout]⟩
        · exact Or.inr ⟨b, r, emitsFor cfg d raw ++ out,
            by simp [drainList, hslot, hout], hun⟩

theorem drainList_noEmpty_stop {cfg : SubConfig} {c : Nat} {l : List LogLine}
    (hne : l.all (fun x => !isEmptyLine x) = true)
    {b : Option LogLine} {r : List LogLine} {e : Bool} {out : List Emission}
    (h : drainList cfg c false l = .stop b r e out) : e = false := by
  induction l generalizing out with
  | nil => simp [drainList] at h
  | cons hd tl ih =>
    cases hd with
    | empty => simp [isEmptyLine] at hne
    | malformed raw => simp only [drainList] at h; cases h
    | record d raw =>
      have hne' : tl.all (fun x => !isEmptyLine x) = true := by
        simpa [isEmptyLine] using hne
      simp only [drainList] at h
      split at h
      · cases h; rfl
      · cases hin : drainList cfg c false tl <;> rw [hin] at h <;> cases h
        exact ih hne' hin

theorem drainList_pure {cfg : SubConfig} {c : Nat} {l : List LogLine}
    (hp : pureLog l = true) :
    drainList cfg c true l =
      .stop (l.dropWhile (fun x => decide (lineSlot x ≤ c))).head?
        (l.dropWhile (fun x => decide (lineSlot x ≤ c))).tail
        (l.dropWhile (fun x => decide (lineSlot x ≤ c))).isEmpty
        ((l.takeWhile (fun x => decide (lineSlot x ≤ c))).flatMap (lineEmit cfg)) := by
  induction l with
  | nil => simp [drainList]
  | cons hd tl ih =>
    cases hd with
    | empty => simp [pureLog, isRecordLine] at hp
    | malformed raw => simp [pureLog, isRecordLine] at hp
    | record d raw =>
      have hp' : pureLog tl = true := (pureLog_cons hp).2
      by_cases hslot : c < d.slot
      · have hb : decide (lineSlot (LogLine.record d raw) ≤ c) = false := by
          simp [lineSlot, Nat.not_le_of_lt hslot]
        simp [drainList, hslot, List.dropWhile_cons, List.takeWhile_cons, hb,
          Nat.not_le_of_lt hslot, lineSlot]
      · have hb : decide (lineSlot (LogLine.record d raw) ≤ c) = true := by
          simp [lineSlot, Nat.le_of_not_lt hslot]
        simp [drainList, hslot, List.dropWhile_cons, List.takeWhile_cons, hb,
          ih hp', lineEmit]

theorem drainList_wf {cfg : SubConfig} {c : Nat} {closes : Bool} {l : List LogLine} :
    ∀ e ∈ (drainList cfg c closes l).emitted, emissionWF cfg e := by
  induction l with
  | nil =>
    intro e he
    simp only [drainList] at he
    split at he <;> simp [DrainRes.emitted] at he
  | cons hd tl ih =>
    intro e he
    cases hd with
    | empty => simp [drainList, DrainRes.emitted] at he
    | malformed raw => simp [drainList, DrainRes.emitted] at he
    | record d raw =>
      simp only [drainList] at he
      split at he
      · simp [DrainRes.emitted] at he
      · cases hin : drainList cfg c closes tl <;> rw [hin] at he <;>
          simp only [DrainRes.emitted, List.mem_append] at he <;>
          rcases he with he | he
        · exact emitsFor_wf he
        · exact ih e (by rw [hin]; exact he)
        · exact emitsFor_wf he
        · exact ih e (by rw [hin]; exact he)
        · exact emitsFor_wf he
        · exact ih e (by rw [hin]; exact he)

theorem drainList_erase (cfg cfg' : SubConfig) (c : Nat) (closes : Bool)
    (l : List LogLine) :
    (drainList cfg c closes l).erase = (drainList cfg' c closes l).erase := by
  induction l with
  | nil => rfl
  | cons hd tl ih =>
    cases hd with
    | empty => rfl
    | malformed raw => rfl
    | record d raw =>
      simp only [drainList]
      split
      · rfl
      · cases h1 : drainList cfg c closes tl <;> cases h2 : drainList cfg' c closes tl <;>
          rw [h1, h2] at ih <;>
          simp only [DrainRes.erase, DrainRes.stop.injEq, and_true] at ih ⊢ <;>
          exact ih

theorem drainList_zero {c : Nat} {closes : Bool} {l : List LogLine} :
    (drainList ⟨0, 0⟩ c closes l).emitted = [] := by
  induction l with
  | nil => simp only [drainList]; split <;> rfl
  | cons hd tl ih =>
    cases hd with
    | empty => rfl
    | malformed raw => rfl
    | record d raw =>
      simp only [drainList]
      split
      · rfl
      · cases hin : drainList ⟨0, 0⟩ c closes tl <;> rw [hin] at ih <;>
          simp only [DrainRes.emitted] at ih ⊢ <;> simp [emitsFor_zero, ih]

theorem drainList_stop_bufferOK {cfg : SubConfig} {c : Nat} {closes : Bool}
    {l : List LogLine} {b : Option LogLine} {r : List LogLine} {e : Bool}
    {out : List Emission} (h : drainList cfg c closes l = .stop b r e out) :
    bufferOK b = true := by
  induction l generalizing out with
  | nil => simp only [drainList] at h; split at h <;> cases h; rfl
  | cons hd tl ih =>
    cases hd with
    | empty => simp only [drainList] at h; cases h; rfl
    | malformed raw => simp only [drainList] at h; cases h
    | record d raw =>
      simp only [drainList] at h
      split at h
      · cases h; rfl
      · cases hin : drainList cfg c closes tl <;> rw [hin] at h <;> cases h
        exact ih hin

/-! ### Facts about `drainStream` -/

theorem drainStream_eq {cfg : SubConfig} {c : Nat} {s : StreamState}
    (hb : bufferOK s.buffer = true) :
    drainStream cfg c s =
      match drainList cfg c s.closes (remainingOf s) with
      | .stop b r e out => .ok ⟨r, s.closes, b, s.done || e⟩ out
      | .fail out => .fail out
      | .block out => .block out := by
  obtain ⟨pend, cl, buf, dn⟩ := s
  cases buf with
  | none =>
    simp only [drainStream, remainingOf, Option.toList, List.nil_append]
  | some l =>
    cases l with
    | empty => simp [bufferOK] at hb
    | malformed raw => simp [bufferOK] at hb
    | record d raw =>
      simp only [drainStream, remainingOf, Option.toList, List.cons_append,
        List.nil_append]
      by_cases hslot : c < d.slot
      · simp [drainList, if_pos hslot, hslot]
      · simp only [drainList, if_neg hslot]
        cases hin : drainList cfg c cl pend <;> rfl

theorem drainStream_ok_state {cfg : SubConfig} {c : Nat} {s s' : StreamState}
    {out : List Emission} (hb : bufferOK s.buffer = true)
    (h : drainStream cfg c s = .ok s' out) :
    (remainingOf s').Sublist (remainingOf s) ∧ s'.closes = s.closes ∧
      bufferOK s'.buffer = true ∧ (s.done = true → s'.done = true) := by
  rw [drainStream_eq hb] at h
  cases hin : drainList cfg c s.closes (remainingOf s) with
  | stop b r e o =>
    rw [hin] at h
    cases h
    refine ⟨?_, rfl, drainList_stop_bufferOK hin, ?_⟩
    · simpa [remainingOf] using drainList_stop_sublist hin
    · intro hdn
      simp [hdn]
  | fail o => rw [hin] at h; cases h
  | block o => rw [hin] at h; cases h

theorem drainStream_emitted_le {cfg : SubConfig} {c : Nat} {s : StreamState}
    (hb : bufferOK s.buffer = true) :
    ∀ e ∈ (drainStream cfg c s).emitted, e.slot ≤ c := by
  rw [drainStream_eq hb]
  cases hin : drainList cfg c s.closes (remainingOf s) <;>
    intro e he <;> simp only [StreamRes.emitted] at he <;>
    exact drainList_emitted_le e (by rw [hin]; exact he)

theorem drainStream_noBlock {cfg : SubConfig} {c : Nat} {s : StreamState}
    {out : List Emission} (hb : bufferOK s.buffer = true) (hcl : s.closes = true)
    (h : drainStream cfg c s = .block out) : False := by
  rw [drainStream_eq hb] at h
  cases hin : drainList cfg c s.closes (remainingOf s) <;> rw [hin] at h <;> cases h
  exact drainList_noBlock (hcl ▸ hin)

theorem drainStream_noFail {cfg : SubConfig} {c : Nat} {s : StreamState}
    {out : List Emission} (hb : bufferOK s.buffer = true)
    (hm : (remainingOf s).all (fun x => !isMalformedLine x) = true)
    (h : drainStream cfg c s = .fail out) : False := by
  rw [drainStream_eq hb] at h
  cases hin : drainList cfg c s.closes (remainingOf s) <;> rw [hin] at h <;> cases h
  exact drainList_noFail hm hin

theorem drainStream_allLE_done {cfg : SubConfig} {c : Nat} {s s' : StreamState}
    {out : List Emission} (hb : bufferOK s.buffer = true)
    (hall : ∀ x ∈ remainingOf s, lineSlot x ≤ c)
    (h : drainStream cfg c s = .ok s' out) : s'.done = true := by
  rw [drainStream_eq hb] at h
  cases hin : drainList cfg c s.closes (remainingOf s) with
  | stop b r e o =>
    rw [hin] at h
    cases h
    simp [drainList_allLE_sawEnd hall hin]
  | fail o => rw [hin] at h; cases h
  | block o => rw [hin] at h; cases h

theorem drainStream_notdone_future {cfg : SubConfig} {c : Nat} {s s' : StreamState}
    {out : List Emission} (hb : bufferOK s.buffer = true)
    (h : drainStream cfg c s = .ok s' out) (hnd : s'.done = false) :
    ∃ d raw, LogLine.record d raw ∈ remainingOf s' ∧ c < d.slot := by
  rw [drainStream_eq hb] at h
  cases hin : drainList cfg c s.closes (remainingOf s) with
  | stop b r e o =>
    rw [hin] at h
    cases h
    simp only at hnd
    have he : e = false := (Bool.or_eq_false_iff.1 hnd).2
    subst he
    rcases drainList_stop_false hin with ⟨d, raw, rfl, hlt⟩
    exact ⟨d, raw, by simp [remainingOf], hlt⟩
  | fail o => rw [hin] at h; cases h
  | block o => rw [hin] at h; cases h

theorem drainStream_wf {cfg : SubConfig} {c : Nat} {s : StreamState}
    (hb : bufferOK s.buffer = true) :
    ∀ e ∈ (drainStream cfg c s).emitted, emissionWF cfg e := by
  rw [drainStream_eq hb]
  cases hin : drainList cfg c s.closes (remainingOf s) <;>
    intro e he <;> simp only [StreamRes.emitted] at he <;>
    exact drainList_wf e (by rw [hin]; exact he)

theorem drainStream_erase {cfg cfg' : SubConfig} {c : Nat} {s : StreamState}
    (hb : bufferOK s.buffer = true) :
    (drainStream cfg c s).erase = (drainStream cfg' c s).erase := by
  rw [drainStream_eq hb, drainStream_eq hb]
  have h := drainList_erase cfg cfg' c s.closes (remainingOf s)
  cases h1 : drainList cfg c s.closes (remainingOf s) <;>
    cases h2 : drainList cfg' c s.closes (remainingOf s) <;>
    rw [h1, h2] at h <;>
    simp only [DrainRes.erase, DrainRes.stop.injEq, and_true] at h <;>
    first
    | (rcases h with ⟨rfl, rfl, rfl⟩; rfl)
    | cases h

theorem drainStream_zero {c : Nat} {s : StreamState} (hb : bufferOK s.buffer = true) :
    (drainStream ⟨0, 0⟩ c s).emitted = [] := by
  rw [drainStream_eq hb]
  have h := @drainList_zero c s.closes (remainingOf s)
  cases hin : drainList ⟨0, 0⟩ c s.closes (remainingOf s) <;> rw [hin] at h <;>
    simpa [StreamRes.emitted] using h

theorem drainStream_unshielded {cfg : SubConfig} {c : Nat} {s : StreamState}
    (hb : bufferOK s.buffer = true)
    (hu : unshieldedMalformed (remainingOf s) = true) :
    (∃ out, drainStream cfg c s = .fail out) ∨
    (∃ s' out, drainStream cfg c s = .ok s' out ∧
      unshieldedMalformed (remainingOf s') = true ∧ s'.done = s.done) := by
  rw [drainStream_eq hb]
  rcases @drainList_unshielded cfg c s.closes _ hu with
    ⟨out, hout⟩ | ⟨b, r, out, hout, hun⟩
  · exact Or.inl ⟨out, by rw [hout]⟩
  · refine Or.inr ⟨⟨r, s.closes, b, s.done || false⟩, out, by rw [hout], ?_, by simp⟩
    simpa [remainingOf] using hun

theorem head?_toList_append_tail {α : Type} (l : List α) :
    l.head?.toList ++ l.tail = l := by
  cases l <;> rfl

theorem dropWhile_dropWhile {α : Type} {p q : α → Bool}
    (h : ∀ x, q x = true → p x = true) (l : List α) :
    (l.dropWhile q).dropWhile p = l.dropWhile p := by
  induction l with
  | nil => rfl
  | cons a t ih =>
    by_cases hq : q a = true
    · simp [List.dropWhile_cons, hq, ih, h a hq]
    · simp [List.dropWhile_cons, hq]

theorem mono_dropWhile_ge {c : Nat} {l : List LogLine} (hm : monoLog l = true) :
    ∀ x ∈ l.dropWhile (fun x => decide (lineSlot x < c)), c ≤ lineSlot x := by
  induction l with
  | nil => intro x hx; cases hx
  | cons a t ih =>
    by_cases ha : lineSlot a < c
    · intro x hx
      exact ih (monoLog_cons hm) x (by simpa [List.dropWhile_cons, ha] using hx)
    · intro x hx
      rw [List.dropWhile_cons] at hx
      simp only [decide_eq_true_eq, ha, if_false] at hx
      rcases List.mem_cons.1 hx with rfl | hx'
      · exact Nat.le_of_not_lt ha
      · exact le_trans (Nat.le_of_not_lt ha) (monoLog_head_le hm hx')

theorem mono_takeWhile_eq_filter {c : Nat} {l : List LogLine} (hm : monoLog l = true)
    (hge : ∀ x ∈ l, c ≤ lineSlot x) :
    l.takeWhile (fun x => decide (lineSlot x ≤ c)) =
      l.filter (fun x => lineSlot x == c) := by
  induction l with
  | nil => rfl
  | cons a t ih =>
    by_cases ha : lineSlot a ≤ c
    · have hac : lineSlot a = c :=
        Nat.le_antisymm ha (hge a (List.mem_cons_self _ _))
      rw [List.takeWhile_cons, List.filter_cons]
      simp only [ha, hac, beq_self_eq_true, if_true, decide_eq_true_eq, le_refl]
      rw [ih (monoLog_cons hm) (fun x hx => hge x (List.mem_cons_of_mem _ hx))]
    · rw [List.takeWhile_cons, List.filter_cons]
      have hane : (lineSlot a == c) = false := by
        simp only [beq_eq_false_iff_ne]
        exact fun hx => ha (Nat.le_of_eq hx)
      simp only [ha, hane, if_false, Bool.false_eq_true, decide_eq_true_eq]
      have : t.filter (fun x => lineSlot x == c) = [] := by
        rw [List.filter_eq_nil_iff]
        intro x hx
        have hax : lineSlot a ≤ lineSlot x := monoLog_head_le hm hx
        simp only [beq_iff_eq]
        intro hxc
        exact ha (le_trans hax (Nat.le_of_eq hxc))
      simp [this, ha]

theorem filter_slot_dropWhile {c : Nat} {l : List LogLine} :
    (l.dropWhile (fun x => decide (lineSlot x < c))).filter
        (fun x => lineSlot x == c) =
      l.filter (fun x => lineSlot x == c) := by
  induction l with
  | nil => rfl
  | cons a t ih =>
    by_cases ha : lineSlot a < c
    · have hane : (lineSlot a == c) = false := by
        simp only [beq_eq_false_iff_ne]
        exact fun hx => absurd (hx ▸ ha) (Nat.lt_irrefl c)
      simp [List.dropWhile_cons, ha, ih, List.filter_cons, hane]
    · simp [List.dropWhile_cons, ha]

/-- The central per-stream invariant step: at cursor `c`, a stream tracking
`log` emits exactly the records of `log` with key `c` (in log order) and
afterwards tracks `log` at cursor `c + 1`. -/
theorem drainStream_tracks {cfg : SubConfig} {c : Nat} {log : List LogLine}
    {s : StreamState} (hp : pureLog log = true) (hm : monoLog log = true)
    (ht : Tracks c log s) :
    ∃ s', drainStream cfg c s =
        .ok s' ((log.filter (fun x => lineSlot x == c)).flatMap (lineEmit cfg)) ∧
      Tracks (c + 1) log s' := by
  obtain ⟨hcl, hb, hrem, hdone⟩ := ht
  have hsubR : ∀ x ∈ log.dropWhile (fun x => decide (lineSlot x < c)), x ∈ log :=
    fun x hx => (List.dropWhile_sublist _).mem hx
  have hpR : pureLog (log.dropWhile (fun x => decide (lineSlot x < c))) = true :=
    pureLog_sub hp hsubR
  have hmR : monoLog (log.dropWhile (fun x => decide (lineSlot x < c))) = true :=
    monoLog_dropWhile hm
  have hgeR := mono_dropWhile_ge (c := c) hm
  have hout : ((log.dropWhile (fun x => decide (lineSlot x < c))).takeWhile
      (fun x => decide (lineSlot x ≤ c))).flatMap (lineEmit cfg) =
      (log.filter (fun x => lineSlot x == c)).flatMap (lineEmit cfg) := by
    rw [mono_takeWhile_eq_filter hmR hgeR, filter_slot_dropWhile]
  have hD : ((log.dropWhile (fun x => decide (lineSlot x < c))).dropWhile
      (fun x => decide (lineSlot x ≤ c))) =
      log.dropWhile (fun x => decide (lineSlot x < c + 1)) := by
    rw [dropWhile_dropWhile (fun x hx => by
      simp only [decide_eq_true_eq] at hx ⊢
      exact Nat.le_of_lt hx) log]
    have hpq : (fun x => decide (lineSlot x ≤ c)) =
        (fun x => decide (lineSlot x < c + 1)) := by
      funext x
      simp [Nat.lt_succ_iff]
    rw [hpq]
  rw [drainStream_eq hb, hrem, hcl, drainList_pure hpR]
  refine ⟨_, by rw [hout], ?_, ?_, ?_, ?_⟩
  · rfl
  · cases hhd : (List.dropWhile (fun x => decide (lineSlot x ≤ c))
        (log.dropWhile (fun x => decide (lineSlot x < c)))).head? with
    | none => rfl
    | some x =>
      have hxmem : x ∈ log := by
        have h1 := List.mem_of_mem_head? hhd
        exact hsubR x ((List.dropWhile_sublist _).mem h1)
      have hrec : isRecordLine x = true := by
        have := (List.all_eq_true.1 hp) x hxmem
        simpa using this
      cases x with
      | record d raw => rfl
      | empty => simp [isRecordLine] at hrec
      | malformed raw => simp [isRecordLine] at hrec
  · show remainingOf _ = _
    rw [remainingOf]
    simp only
    rw [head?_toList_append_tail, hD]
  · intro hdn
    show remainingOf _ = []
    rw [remainingOf]
    simp only
    rw [head?_toList_append_tail]
    simp only at hdn
    rcases Bool.or_eq_true_iff.1 hdn with hdn' | hdn'
    · have hRnil : log.dropWhile (fun x => decide (lineSlot x < c)) = [] := by
        rw [← hrem]; exact hdone hdn'
      rw [hRnil]
      rfl
    · exact List.isEmpty_iff.1 hdn'

theorem drainStream_neverYields {cfg : SubConfig} {c : Nat} {s : StreamState}
    (hb : bufferOK s.buffer = true) (hny : neverYields s = true)
    (hm : (remainingOf s).all (fun x => !isMalformedLine x) = true) :
    (∃ out, drainStream cfg c s = .block out) ∨
    (∃ s' out, drainStream cfg c s = .ok s' out ∧ neverYields s' = true) := by
  have hcl : s.closes = false := by
    have := (Bool.and_eq_true_iff.1 (Bool.and_eq_true_iff.1 hny).1).1
    simpa using this
  have hne : (remainingOf s).all (fun x => !isEmptyLine x) = true :=
    (Bool.and_eq_true_iff.1 (Bool.and_eq_true_iff.1 hny).1).2
  have hdn : s.done = false := by
    have := (Bool.and_eq_true_iff.1 hny).2
    simpa using this
  rw [drainStream_eq hb]
  cases hin : drainList cfg c s.closes (remainingOf s) with
  | block out => exact Or.inl ⟨out, rfl⟩
  | fail out => exact absurd hin (fun hx => drainList_noFail hm hx)
  | stop b r e out =>
    have he : e = false := drainList_noEmpty_stop hne (hcl ▸ hin)
    refine Or.inr ⟨⟨r, s.closes, b, s.done || e⟩, out, rfl, ?_⟩
    have hsub : (b.toList ++ r).Sublist (remainingOf s) := drainList_stop_sublist hin
    have hne' : (b.toList ++ r).all (fun x => !isEmptyLine x) = true := by
      simp only [List.all_eq_true] at hne ⊢
      exact fun x hx => hne x (hsub.mem hx)
    simp [neverYields, remainingOf, hcl, hdn, he, hne']

/-! ### Facts about one whole tick -/

theorem forall₂_mem_left {α β : Type} {R : α → β → Prop} {l : List α} {l' : List β}
    (h : List.Forall₂ R l l') {x : α} (hx : x ∈ l) : ∃ y ∈ l', R x y := by
  induction h with
  | nil => cases hx
  | cons hr _ ih =>
    rcases List.mem_cons.1 hx with rfl | hx'
    · exact ⟨_, List.mem_cons_self _ _, hr⟩
    · rcases ih hx' with ⟨y, hy, hR⟩
      exact ⟨y, List.mem_cons_of_mem _ hy, hR⟩

theorem forall₂_mem_right {α β : Type} {R : α → β → Prop} {l : List α} {l' : List β}
    (h : List.Forall₂ R l l') {y : β} (hy : y ∈ l') : ∃ x ∈ l, R x y := by
  induction h with
  | nil => cases hy
  | cons hr _ ih =>
    rcases List.mem_cons.1 hy with rfl | hy'
    · exact ⟨_, List.mem_cons_self _ _, hr⟩
    · rcases ih hy' with ⟨x, hx, hR⟩
      exact ⟨x, List.mem_cons_of_mem _ hx, hR⟩

theorem tick_ok_forall₂ {cfg : SubConfig} {c : Nat} {ss ss' : List StreamState}
    {out : List Emission} (h : tick cfg c ss = .ok ss' out) :
    List.Forall₂ (fun s s' => ∃ o, drainStream cfg c s = .ok s' o) ss ss' := by
  induction ss generalizing ss' out with
  | nil => cases h; exact List.Forall₂.nil
  | cons s rest ih =>
    simp only [tick] at h
    cases hds : drainStream cfg c s with
    | ok s1 o1 =>
      rw [hds] at h
      cases htr : tick cfg c rest with
      | ok ss1 o2 =>
        rw [htr] at h
        cases h
        exact List.Forall₂.cons ⟨o1, hds⟩ (ih htr)
      | fail o2 => rw [htr] at h; cases h
      | block o2 => rw [htr] at h; cases h
    | fail o1 => rw [hds] at h; cases h
    | block o1 => rw [hds] at h; cases h

theorem mem_le_maxSlotList {x : LogLine} {l : List LogLine} (hx : x ∈ l) :
    lineSlot x ≤ maxSlotList l := by
  induction l with
  | nil => cases hx
  | cons a t ih =>
    rcases List.mem_cons.1 hx with rfl | hx'
    · exact Nat.le_max_left _ _
    · exact le_trans (ih hx') (Nat.le_max_right _ _)

theorem maxSlotList_le {l : List LogLine} {B : Nat}
    (h : ∀ x ∈ l, lineSlot x ≤ B) : maxSlotList l ≤ B := by
  induction l with
  | nil => exact Nat.zero_le B
  | cons a t ih =>
    exact Nat.max_le.2 ⟨h a (List.mem_cons_self _ _),
      ih (fun x hx => h x (List.mem_cons_of_mem _ hx))⟩

theorem mem_le_ssMaxSlot {s : StreamState} {ss : List StreamState} (hs : s ∈ ss) :
    maxSlotList (remainingOf s) ≤ ssMaxSlot ss := by
  induction ss with
  | nil => cases hs
  | cons a t ih =>
    rcases List.mem_cons.1 hs with rfl | hs'
    · exact Nat.le_max_left _ _
    · exact le_trans (ih hs') (Nat.le_max_right _ _)

theorem tick_emitted_le {cfg : SubConfig} {c : Nat} {ss : List StreamState}
    (hb : ssBufferOK ss = true) : ∀ e ∈ (tick cfg c ss).emitted, e.slot ≤ c := by
  induction ss with
  | nil => intro e he; cases he
  | cons s rest ih =>
    have hbs : bufferOK s.buffer = true := by
      simp only [ssBufferOK, List.all_cons, Bool.and_eq_true] at hb
      exact hb.1
    have hbr : ssBufferOK rest = true := by
      simp only [ssBufferOK, List.all_cons, Bool.and_eq_true] at hb
      exact hb.2
    intro e he
    simp only [tick] at he
    cases hds : drainStream cfg c s with
    | ok s1 o1 =>
      rw [hds] at he
      cases htr : tick cfg c rest with
      | ok ss1 o2 =>
        rw [htr] at he
        simp only [TickRes.emitted, List.mem_append] at he
        rcases he with he | he
        · exact drainStream_emitted_le hbs e (by rw [hds]; exact he)
        · exact ih hbr e (by rw [htr]; exact he)
      | fail o2 =>
        rw [htr] at he
        simp only [TickRes.emitted, List.mem_append] at he
        rcases he with he | he
        · exact drainStream_emitted_le hbs e (by rw [hds]; exact he)
        · exact ih hbr e (by rw [htr]; exact he)
      | block o2 =>
        rw [htr] at he
        simp only [TickRes.emitted, List.mem_append] at he
        rcases he with he | he
        · exact drainStream_emitted_le hbs e (by rw [hds]; exact he)
        · exact ih hbr e (by rw [htr]; exact he)
    | fail o1 =>
      rw [hds] at he
      exact drainStream_emitted_le hbs e (by rw [hds]; exact he)
    | block o1 =>
      rw [hds] at he
      exact drainStream_emitted_le hbs e (by rw [hds]; exact he)

theorem tick_wf {cfg : SubConfig} {c : Nat} {ss : List StreamState}
    (hb : ssBufferOK ss = true) :
    ∀ e ∈ (tick cfg c ss).emitted, emissionWF cfg e := by
  induction ss with
  | nil => intro e he; cases he
  | cons s rest ih =>
    have hbs : bufferOK s.buffer = true := by
      simp only [ssBufferOK, List.all_cons, Bool.and_eq_true] at hb
      exact hb.1
    have hbr : ssBufferOK rest = true := by
      simp only [ssBufferOK, List.all_cons, Bool.and_eq_true] at hb
      exact hb.2
    intro e he
    simp only [tick] at he
    cases hds : drainStream cfg c s with
    | ok s1 o1 =>
      rw [hds] at he
      cases htr : tick cfg c rest with
      | ok ss1 o2 =>
        rw [htr] at he
        simp only [TickRes.emitted, List.mem_append] at he
        rcases he with he | he
        · exact drainStream_wf hbs e (by rw [hds]; exact he)
        · exact ih hbr e (by rw [htr]; exact he)
      | fail o2 =>
        rw [htr] at he
        simp only [TickRes.emitted, List.mem_append] at he
        rcases he with he | he
        · exact drainStream_wf hbs e (by rw [hds]; exact he)
        · exact ih hbr e (by rw [htr]; exact he)
      | block o2 =>
        rw [htr] at he
        simp only [TickRes.emitted, List.mem_append] at he
        rcases he with he | he
        · exact drainStream_wf hbs e (by rw [hds]; exact he)
        · exact ih hbr e (by rw [htr]; exact he)
    | fail o1 =>
      rw [hds] at he
      exact drainStream_wf hbs e (by rw [hds]; exact he)
    | block o1 =>
      rw [hds] at he
      exact drainStream_wf hbs e (by rw [hds]; exact he)

theorem tick_noBlock {cfg : SubConfig} {c : Nat} {ss : List StreamState}
    {out : List Emission} (hb : ssBufferOK ss = true) (hcl : ssCloses ss = true)
    (h : tick cfg c ss = .block out) : False := by
  induction ss generalizing out with
  | nil => cases h
  | cons s rest ih =>
    simp only [ssBufferOK, ssCloses, List.all_cons, Bool.and_eq_true] at hb hcl
    simp only [tick] at h
    cases hds : drainStream cfg c s with
    | ok s1 o1 =>
      rw [hds] at h
      cases htr : tick cfg c rest with
      | ok ss1 o2 => rw [htr] at h; cases h
      | fail o2 => rw [htr] at h; cases h
      | block o2 => exact ih hb.2 hcl.2 htr
    | fail o1 => rw [hds] at h; cases h
    | block o1 => exact drainStream_noBlock hb.1 hcl.1 hds

theorem tick_noFail {cfg : SubConfig} {c : Nat} {ss : List StreamState}
    {out : List Emission} (hb : ssBufferOK ss = true) (hm : ssNoMalformed ss = true)
    (h : tick cfg c ss = .fail out) : False := by
  induction ss generalizing out with
  | nil => cases h
  | cons s rest ih =>
    simp only [ssBufferOK, ssNoMalformed, List.all_cons, Bool.and_eq_true] at hb hm
    simp only [tick] at h
    cases hds : drainStream cfg c s with
    | ok s1 o1 =>
      rw [hds] at h
      cases htr : tick cfg c rest with
      | ok ss1 o2 => rw [htr] at h; cases h
      | fail o2 => exact ih hb.2 hm.2 htr
      | block o2 => rw [htr] at h; cases h
    | fail o1 => exact drainStream_noFail hb.1 hm.1 hds
    | block o1 => rw [hds] at h; cases h

theorem tick_ok_states {cfg : SubConfig} {c : Nat} {ss ss' : List StreamState}
    {out : List Emission} (hb : ssBufferOK ss = true)
    (h : tick cfg c ss = .ok ss' out) :
    ssBufferOK ss' = true ∧ (ssCloses ss = true → ssCloses ss' = true) ∧
      (ssNoMalformed ss = true → ssNoMalformed ss' = true) ∧
      ssLines ss' ≤ ssLines ss ∧ ssMaxSlot ss' ≤ ssMaxSlot ss := by
  induction ss generalizing ss' out with
  | nil =>
    cases h
    exact ⟨rfl, fun _ => rfl, fun _ => rfl, le_refl _, le_refl _⟩
  | cons s rest ih =>
    simp only [ssBufferOK, List.all_cons, Bool.and_eq_true] at hb
    simp only [tick] at h
    cases hds : drainStream cfg c s with
    | ok s1 o1 =>
      rw [hds] at h
      cases htr : tick cfg c rest with
      | ok ss1 o2 =>
        rw [htr] at h
        cases h
        obtain ⟨hsub, hclq, hbq, _⟩ := drainStream_ok_state hb.1 hds
        obtain ⟨ih1, ih2, ih3, ih4, ih5⟩ := ih hb.2 htr
        refine ⟨?_, ?_, ?_, ?_, ?_⟩
        · simp only [ssBufferOK, List.all_cons, Bool.and_eq_true]
          exact ⟨hbq, ih1⟩
        · intro hcl
          simp only [ssCloses, List.all_cons, Bool.and_eq_true] at hcl ⊢
          exact ⟨by rw [hclq]; exact hcl.1, ih2 hcl.2⟩
        · intro hm
          simp only [ssNoMalformed, List.all_cons, Bool.and_eq_true] at hm ⊢
          refine ⟨?_, ih3 hm.2⟩
          have hm1 := hm.1
          simp only [List.all_eq_true] at hm1 ⊢
          exact fun x hx => hm1 x (hsub.mem hx)
        · simp only [ssLines, List.map_cons, List.sum_cons]
          exact Nat.add_le_add (by simpa [streamLines] using hsub.length_le) ih4
        · simp only [ssMaxSlot, List.map_cons, List.foldr_cons]
          exact Nat.max_le.2
            ⟨le_trans (maxSlotList_le (fun x hx => mem_le_maxSlotList (hsub.mem hx)))
              (Nat.le_max_left _ _),
             le_trans ih5 (Nat.le_max_right _ _)⟩
      | fail o2 => rw [htr] at h; cases h
      | block o2 => rw [htr] at h; cases h
    | fail o1 => rw [hds] at h; cases h
    | block o1 => rw [hds] at h; cases h

theorem tick_allLE_done {cfg : SubConfig} {c : Nat} {ss ss' : List StreamState}
    {out : List Emission} (hb : ssBufferOK ss = true) (hle : ssMaxSlot ss ≤ c)
    (h : tick cfg c ss = .ok ss' out) : ss'.all (fun s => s.done) = true := by
  induction ss generalizing ss' out with
  | nil => cases h; rfl
  | cons s rest ih =>
    simp only [ssBufferOK, List.all_cons, Bool.and_eq_true] at hb
    have hles : maxSlotList (remainingOf s) ≤ c :=
      le_trans (mem_le_ssMaxSlot (List.mem_cons_self _ _)) hle
    have hler : ssMaxSlot rest ≤ c := by
      have : ssMaxSlot rest ≤ ssMaxSlot (s :: rest) := by
        simp only [ssMaxSlot, List.map_cons, List.foldr_cons]
        exact Nat.le_max_right _ _
      exact le_trans this hle
    simp only [tick] at h
    cases hds : drainStream cfg c s with
    | ok s1 o1 =>
      rw [hds] at h
      cases htr : tick cfg c rest with
      | ok ss1 o2 =>
        rw [htr] at h
        cases h
        simp only [List.all_cons, Bool.and_eq_true]
        refine ⟨?_, ih hb.2 hler htr⟩
        exact drainStream_allLE_done hb.1
          (fun x hx => le_trans (mem_le_maxSlotList hx) hles) hds
      | fail o2 => rw [htr] at h; cases h
      | block o2 => rw [htr] at h; cases h
    | fail o1 => rw [hds] at h; cases h
    | block o1 => rw [hds] at h; cases h

theorem tick_notdone_bound {cfg : SubConfig} {c : Nat} {ss ss' : List StreamState}
    {out : List Emission} (hb : ssBufferOK ss = true)
    (h : tick cfg c ss = .ok ss' out) {s' : StreamState} (hs' : s' ∈ ss')
    (hnd : s'.done = false) : c + 1 ≤ ssMaxSlot ss' := by
  rcases forall₂_mem_right (tick_ok_forall₂ h) hs' with ⟨s, hs, o, hds⟩
  have hbs : bufferOK s.buffer = true := by
    simp only [ssBufferOK, List.all_eq_true] at hb
    exact hb s hs
  rcases drainStream_notdone_future hbs hds hnd with ⟨d, raw, hmem, hlt⟩
  have h1 : d.slot ≤ maxSlotList (remainingOf s') := by
    have := mem_le_maxSlotList hmem
    simpa [lineSlot] using this
  exact le_trans (Nat.succ_le_of_lt (Nat.lt_of_lt_of_le hlt h1))
    (mem_le_ssMaxSlot hs')

theorem tick_erase {cfg cfg' : SubConfig} {c : Nat} {ss : List StreamState}
    (hb : ssBufferOK ss = true) :
    (tick cfg c ss).erase = (tick cfg' c ss).erase := by
  induction ss with
  | nil => rfl
  | cons s rest ih =>
    simp only [ssBufferOK, List.all_cons, Bool.and_eq_true] at hb
    have hds := @drainStream_erase cfg cfg' c _ hb.1
    have htr := ih hb.2
    simp only [tick]
    cases h1 : drainStream cfg c s with
    | ok s1 o1 =>
      cases h2 : drainStream cfg' c s with
      | ok s2 o2 =>
        rw [h1, h2] at hds
        simp only [StreamRes.erase, StreamRes.ok.injEq, and_true] at hds
        subst hds
        cases h3 : tick cfg c rest <;> cases h4 : tick cfg' c rest <;>
          rw [h3, h4] at htr <;>
          simp only [TickRes.erase, TickRes.ok.injEq, and_true] at htr ⊢ <;>
          first
          | rfl
          | (cases htr <;> rfl)
      | fail o2 => rw [h1, h2] at hds; simp [StreamRes.erase] at hds
      | block o2 => rw [h1, h2] at hds; simp [StreamRes.erase] at hds
    | fail o1 =>
      cases h2 : drainStream cfg' c s with
      | ok s2 o2 => rw [h1, h2] at hds; simp [StreamRes.erase] at hds
      | fail o2 => rfl
      | block o2 => rw [h1, h2] at hds; simp [StreamRes.erase] at hds
    | block o1 =>
      cases h2 : drainStream cfg' c s with
      | ok s2 o2 => rw [h1, h2] at hds; simp [StreamRes.erase] at hds
      | fail o2 => rw [h1, h2] at hds; simp [StreamRes.erase] at hds
      | block o2 => rfl

theorem tick_zero {c : Nat} {ss : List StreamState} (hb : ssBufferOK ss = true) :
    (tick ⟨0, 0⟩ c ss).emitted = [] := by
  induction ss with
  | nil => rfl
  | cons s rest ih =>
    simp only [ssBufferOK, List.all_cons, Bool.and_eq_true] at hb
    have hds := drainStream_zero (c := c) hb.1
    have htr := ih hb.2
    simp only [tick]
    cases h1 : drainStream ⟨0, 0⟩ c s <;> rw [h1] at hds <;>
      simp only [StreamRes.emitted] at hds <;> subst hds
    · cases h3 : tick ⟨0, 0⟩ c rest <;> rw [h3] at htr <;>
        simp only [TickRes.emitted] at htr ⊢ <;> simp [htr]
    · rfl
    · rfl

/-- One tick over streams tracking `logs` returns exactly the canonical
tick output and leaves the streams tracking `logs` at the next cursor. -/
theorem tick_tracks {cfg : SubConfig} {c : Nat} {logs : List (List LogLine)}
    {ss : List StreamState} (hp : ∀ log ∈ logs, pureLog log = true)
    (hm : ∀ log ∈ logs, monoLog log = true) (ht : TracksAll c logs ss) :
    ∃ ss', tick cfg c ss = .ok ss' (tickSpecOut cfg c logs) ∧
      TracksAll (c + 1) logs ss' := by
  induction ht with
  | nil => exact ⟨[], rfl, List.Forall₂.nil⟩
  | @cons log s logs' ss' hts htl ih =>
    rcases @drainStream_tracks cfg _ _ _ (hp log (List.mem_cons_self _ _))
      (hm log (List.mem_cons_self _ _)) hts with ⟨s1, hds, ht1⟩
    rcases ih (fun l hl => hp l (List.mem_cons_of_mem _ hl))
      (fun l hl => hm l (List.mem_cons_of_mem _ hl)) with ⟨ss1, htk, ht2⟩
    refine ⟨s1 :: ss1, ?_, List.Forall₂.cons ht1 ht2⟩
    simp only [tick, hds, htk, tickSpecOut, List.flatMap_cons]

/-! ### Facts about the per-segment merge loop -/

theorem after_cursor? (o : List Emission) (r : MergeRes) :
    (MergeRes.after o r).cursor? = r.cursor? := by
  cases r <;> rfl

theorem after_emitted (o : List Emission) (r : MergeRes) :
    (MergeRes.after o r).emitted = o ++ r.emitted := by
  cases r <;> rfl

theorem after_isOutOfFuel (o : List Emission) (r : MergeRes) :
    (MergeRes.after o r).isOutOfFuel = r.isOutOfFuel := by
  cases r <;> rfl

theorem after_eq_ok {o : List Emission} {r : MergeRes} {ce : Nat}
    {fs : List StreamState} {out : List Emission}
    (h : MergeRes.after o r = .ok ce fs out) :
    ∃ o', r = .ok ce fs o' ∧ out = o ++ o' := by
  cases r <;> simp only [MergeRes.after] at h <;> cases h
  exact ⟨_, rfl, rfl⟩

theorem after_eq_fail {o : List Emission} {r : MergeRes} {ce : Nat}
    {out : List Emission} (h : MergeRes.after o r = .fail ce out) :
    ∃ o', r = .fail ce o' ∧ out = o ++ o' := by
  cases r <;> simp only [MergeRes.after] at h <;> cases h
  exact ⟨_, rfl, rfl⟩

theorem after_eq_block {o : List Emission} {r : MergeRes} {ce : Nat}
    {out : List Emission} (h : MergeRes.after o r = .block ce out) :
    ∃ o', r = .block ce o' ∧ out = o ++ o' := by
  cases r <;> simp only [MergeRes.after] at h <;> cases h
  exact ⟨_, rfl, rfl⟩

theorem runMergeLoop_tick_fail {cfg : SubConfig} {f c : Nat}
    {ss : List StreamState} {out : List Emission}
    (htk : tick cfg c ss = .fail out) :
    runMergeLoop cfg (f + 1) c ss = .fail c out := by
  simp [runMergeLoop, htk]

theorem runMergeLoop_tick_block {cfg : SubConfig} {f c : Nat}
    {ss : List StreamState} {out : List Emission}
    (htk : tick cfg c ss = .block out) :
    runMergeLoop cfg (f + 1) c ss = .block c out := by
  simp [runMergeLoop, htk]

theorem runMergeLoop_tick_ok_done {cfg : SubConfig} {f c : Nat}
    {ss ss' : List StreamState} {out : List Emission}
    (htk : tick cfg c ss = .ok ss' out)
    (hdn : ss'.all (fun s => s.done) = true) :
    runMergeLoop cfg (f + 1) c ss = .ok c ss' out := by
  simp [runMergeLoop, htk, hdn]

theorem runMergeLoop_tick_ok_cont {cfg : SubConfig} {f c : Nat}
    {ss ss' : List StreamState} {out : List Emission}
    (htk : tick cfg c ss = .ok ss' out)
    (hdn : ss'.all (fun s => s.done) = false) :
    runMergeLoop cfg (f + 1) c ss =
      MergeRes.after out (runMergeLoop cfg f (c + 1) ss') := by
  cases hrec : runMergeLoop cfg f (c + 1) ss' <;>
    simp [runMergeLoop, htk, hdn, hrec, MergeRes.after]

theorem after_erase (o : List Emission) (r : MergeRes) :
    (MergeRes.after o r).erase = r.erase := by
  cases r <;> rfl

theorem all_false_exists {α : Type} {p : α → Bool} {l : List α}
    (h : l.all p = false) : ∃ x ∈ l, p x = false := by
  induction l with
  | nil => cases h
  | cons a t ih =>
    by_cases hpa : p a = true
    · have ht : t.all p = false := by simpa [List.all_cons, hpa] using h
      rcases ih ht with ⟨x, hx, hfx⟩
      exact ⟨x, List.mem_cons_of_mem _ hx, hfx⟩
    · exact ⟨a, List.mem_cons_self _ _, by simpa using hpa⟩

theorem merge_cursor_ge {cfg : SubConfig} {fuel c : Nat} {ss : List StreamState}
    {ce : Nat} (h : (runMergeLoop cfg fuel c ss).cursor? = some ce) : c ≤ ce := by
  induction fuel generalizing c ss ce with
  | zero => cases h
  | succ f ih =>
    cases htk : tick cfg c ss with
    | ok ss' out' =>
      cases hdn : ss'.all (fun s => s.done) with
      | true =>
        rw [runMergeLoop_tick_ok_done htk hdn] at h
        cases h
        exact le_refl _
      | false =>
        rw [runMergeLoop_tick_ok_cont htk hdn, after_cursor?] at h
        exact le_trans (Nat.le_succ c) (ih h)
    | fail out' =>
      rw [runMergeLoop_tick_fail htk] at h
      cases h
      exact le_refl _
    | block out' =>
      rw [runMergeLoop_tick_block htk] at h
      cases h
      exact le_refl _

theorem merge_ok_all_done {cfg : SubConfig} {fuel c : Nat} {ss : List StreamState}
    {ce : Nat} {fs : List StreamState} {out : List Emission}
    (h : runMergeLoop cfg fuel c ss = .ok ce fs out) :
    fs.all (fun s => s.done) = true := by
  induction fuel generalizing c ss ce fs out with
  | zero => cases h
  | succ f ih =>
    cases htk : tick cfg c ss with
    | ok ss' out' =>
      cases hdn : ss'.all (fun s => s.done) with
      | true =>
        rw [runMergeLoop_tick_ok_done htk hdn] at h
        cases h
        exact hdn
      | false =>
        rw [runMergeLoop_tick_ok_cont htk hdn] at h
        rcases after_eq_ok h with ⟨o', hrec, rfl⟩
        exact ih hrec
    | fail out' => rw [runMergeLoop_tick_fail htk] at h; cases h
    | block out' => rw [runMergeLoop_tick_block htk] at h; cases h

theorem merge_emitted_le {cfg : SubConfig} {fuel c : Nat} {ss : List StreamState}
    {ce : Nat} (hb : ssBufferOK ss = true)
    (h : (runMergeLoop cfg fuel c ss).cursor? = some ce) :
    ∀ e ∈ (runMergeLoop cfg fuel c ss).emitted, e.slot ≤ ce := by
  induction fuel generalizing c ss ce with
  | zero => cases h
  | succ f ih =>
    have hge : c ≤ ce := merge_cursor_ge h
    cases htk : tick cfg c ss with
    | ok ss' out' =>
      have hb' := (tick_ok_states hb htk).1
      cases hdn : ss'.all (fun s => s.done) with
      | true =>
        rw [runMergeLoop_tick_ok_done htk hdn]
        intro e he
        exact le_trans (tick_emitted_le hb e (by rw [htk]; exact he)) hge
      | false =>
        rw [runMergeLoop_tick_ok_cont htk hdn] at h ⊢
        rw [after_cursor?] at h
        rw [after_emitted]
        intro e he
        rcases List.mem_append.1 he with he | he
        · exact le_trans (tick_emitted_le hb e (by rw [htk]; exact he)) hge
        · exact ih hb' h e he
    | fail out' =>
      rw [runMergeLoop_tick_fail htk] at h ⊢
      cases h
      intro e he
      exact tick_emitted_le hb e (by rw [htk]; exact he)
    | block out' =>
      rw [runMergeLoop_tick_block htk] at h ⊢
      cases h
      intro e he
      exact tick_emitted_le hb e (by rw [htk]; exact he)

theorem merge_noBlock {cfg : SubConfig} {fuel c : Nat} {ss : List StreamState}
    {ce : Nat} {out : List Emission} (hb : ssBufferOK ss = true)
    (hcl : ssCloses ss = true)
    (h : runMergeLoop cfg fuel c ss = .block ce out) : False := by
  induction fuel generalizing c ss ce out with
  | zero => cases h
  | succ f ih =>
    cases htk : tick cfg c ss with
    | ok ss' out' =>
      obtain ⟨hb', hcl', _, _, _⟩ := tick_ok_states hb htk
      cases hdn : ss'.all (fun s => s.done) with
      | true => rw [runMergeLoop_tick_ok_done htk hdn] at h; cases h
      | false =>
        rw [runMergeLoop_tick_ok_cont htk hdn] at h
        rcases after_eq_block h with ⟨o', hrec, rfl⟩
        exact ih hb' (hcl' hcl) hrec
    | fail out' => rw [runMergeLoop_tick_fail htk] at h; cases h
    | block out' =>
      exact tick_noBlock hb hcl htk

theorem merge_noFail {cfg : SubConfig} {fuel c : Nat} {ss : List StreamState}
    {ce : Nat} {out : List Emission} (hb : ssBufferOK ss = true)
    (hm : ssNoMalformed ss = true)
    (h : runMergeLoop cfg fuel c ss = .fail ce out) : False := by
  induction fuel generalizing c ss ce out with
  | zero => cases h
  | succ f ih =>
    cases htk : tick cfg c ss with
    | ok ss' out' =>
      obtain ⟨hb', _, hm', _, _⟩ := tick_ok_states hb htk
      cases hdn : ss'.all (fun s => s.done) with
      | true => rw [runMergeLoop_tick_ok_done htk hdn] at h; cases h
      | false =>
        rw [runMergeLoop_tick_ok_cont htk hdn] at h
        rcases after_eq_fail h with ⟨o', hrec, rfl⟩
        exact ih hb' (hm' hm) hrec
    | fail out' => exact tick_noFail hb hm htk
    | block out' => rw [runMergeLoop_tick_block htk] at h; cases h

theorem merge_noFuel {cfg : SubConfig} {fuel c : Nat} {ss : List StreamState}
    (hb : ssBufferOK ss = true) (hfl : fuelNeed c ss ≤ fuel) :
    (runMergeLoop cfg fuel c ss).isOutOfFuel = false := by
  induction fuel generalizing c ss with
  | zero =>
    exfalso
    simp only [fuelNeed] at hfl
    omega
  | succ f ih =>
    cases htk : tick cfg c ss with
    | ok ss' out' =>
      cases hdn : ss'.all (fun s => s.done) with
      | true => rw [runMergeLoop_tick_ok_done htk hdn]; rfl
      | false =>
        obtain ⟨hb', _, _, hL, hM⟩ := tick_ok_states hb htk
        have hcM : c < ssMaxSlot ss := by
          by_contra hc
          have := tick_allLE_done hb (Nat.le_of_not_lt hc) htk
          rw [this] at hdn
          cases hdn
        have hfl' : fuelNeed (c + 1) ss' ≤ f := by
          simp only [fuelNeed] at hfl ⊢
          omega
        rw [runMergeLoop_tick_ok_cont htk hdn, after_isOutOfFuel]
        exact ih hb' hfl'
    | fail out' => rw [runMergeLoop_tick_fail htk]; rfl
    | block out' => rw [runMergeLoop_tick_block htk]; rfl

theorem merge_stable_block {cfg : SubConfig} {fuel c : Nat} {ss : List StreamState}
    {ce : Nat} {out : List Emission}
    (h : runMergeLoop cfg fuel c ss = .block ce out) :
    ∀ f', fuel ≤ f' → runMergeLoop cfg f' c ss = .block ce out := by
  induction fuel generalizing c ss ce out with
  | zero => cases h
  | succ f ih =>
    intro f' hf'
    obtain ⟨f'', rfl⟩ : ∃ f'', f' = f'' + 1 := ⟨f' - 1, by omega⟩
    have hf'' : f ≤ f'' := by omega
    cases htk : tick cfg c ss with
    | ok ss' out' =>
      cases hdn : ss'.all (fun s => s.done) with
      | true => rw [runMergeLoop_tick_ok_done htk hdn] at h; cases h
      | false =>
        rw [runMergeLoop_tick_ok_cont htk hdn] at h
        rcases after_eq_block h with ⟨o', hrec, rfl⟩
        rw [runMergeLoop_tick_ok_cont htk hdn, ih hrec f'' hf'']
        rfl
    | fail out' => rw [runMergeLoop_tick_fail htk] at h; cases h
    | block out' =>
      rw [runMergeLoop_tick_block htk] at h
      cases h
      exact runMergeLoop_tick_block htk

theorem merge_ok_cursor_bound {cfg : SubConfig} {fuel c : Nat}
    {ss : List StreamState} {ce : Nat} {fs : List StreamState}
    {out : List Emission} (hb : ssBufferOK ss = true)
    (h : runMergeLoop cfg fuel c ss = .ok ce fs out) :
    ce ≤ Nat.max c (ssMaxSlot ss) := by
  induction fuel generalizing c ss ce fs out with
  | zero => cases h
  | succ f ih =>
    cases htk : tick cfg c ss with
    | ok ss' out' =>
      obtain ⟨hb', _, _, _, hM⟩ := tick_ok_states hb htk
      cases hdn : ss'.all (fun s => s.done) with
      | true =>
        rw [runMergeLoop_tick_ok_done htk hdn] at h
        cases h
        exact Nat.le_max_left _ _
      | false =>
        rw [runMergeLoop_tick_ok_cont htk hdn] at h
        rcases after_eq_ok h with ⟨o', hrec, rfl⟩
        have hbnd := ih hb' hrec
        rcases all_false_exists hdn with ⟨s', hs', hnd⟩
        have hlt : c + 1 ≤ ssMaxSlot ss' := tick_notdone_bound hb htk hs' hnd
        have : Nat.max (c + 1) (ssMaxSlot ss') = ssMaxSlot ss' :=
          Nat.max_eq_right hlt
        rw [this] at hbnd
        exact le_trans (le_trans hbnd hM) (Nat.le_max_right _ _)
    | fail out' => rw [runMergeLoop_tick_fail htk] at h; cases h
    | block out' => rw [runMergeLoop_tick_block htk] at h; cases h

theorem merge_wf {cfg : SubConfig} {fuel c : Nat} {ss : List StreamState}
    (hb : ssBufferOK ss = true) :
    ∀ e ∈ (runMergeLoop cfg fuel c ss).emitted, emissionWF cfg e := by
  induction fuel generalizing c ss with
  | zero => intro e he; cases he
  | succ f ih =>
    cases htk : tick cfg c ss with
    | ok ss' out' =>
      have hb' := (tick_ok_states hb htk).1
      cases hdn : ss'.all (fun s => s.done) with
      | true =>
        rw [runMergeLoop_tick_ok_done htk hdn]
        intro e he
        exact tick_wf hb e (by rw [htk]; exact he)
      | false =>
        rw [runMergeLoop_tick_ok_cont htk hdn, after_emitted]
        intro e he
        rcases List.mem_append.1 he with he | he
        · exact tick_wf hb e (by rw [htk]; exact he)
        · exact ih hb' e he
    | fail out' =>
      rw [runMergeLoop_tick_fail htk]
      intro e he
      exact tick_wf hb e (by rw [htk]; exact he)
    | block out' =>
      rw [runMergeLoop_tick_block htk]
      intro e he
      exact tick_wf hb e (by rw [htk]; exact he)

theorem merge_zero {fuel c : Nat} {ss : List StreamState}
    (hb : ssBufferOK ss = true) :
    (runMergeLoop ⟨0, 0⟩ fuel c ss).emitted = [] := by
  induction fuel generalizing c ss with
  | zero => rfl
  | succ f ih =>
    cases htk : tick ⟨0, 0⟩ c ss with
    | ok ss' out' =>
      have hb' := (tick_ok_states hb htk).1
      have htz : out' = [] := by
        have := tick_zero (c := c) hb
        rw [htk] at this
        exact this
      subst htz
      cases hdn : ss'.all (fun s => s.done) with
      | true => rw [runMergeLoop_tick_ok_done htk hdn]; rfl
      | false =>
        rw [runMergeLoop_tick_ok_cont htk hdn, after_emitted, ih hb']
        rfl
    | fail out' =>
      rw [runMergeLoop_tick_fail htk]
      have := tick_zero (c := c) hb
      rw [htk] at this
      exact this
    | block out' =>
      rw [runMergeLoop_tick_block htk]
      have := tick_zero (c := c) hb
      rw [htk] at this
      exact this

theorem merge_erase {cfg cfg' : SubConfig} {fuel c : Nat} {ss : List StreamState}
    (hb : ssBufferOK ss = true) :
    (runMergeLoop cfg fuel c ss).erase = (runMergeLoop cfg' fuel c ss).erase := by
  induction fuel generalizing c ss with
  | zero => rfl
  | succ f ih =>
    have hte := @tick_erase cfg cfg' c _ hb
    cases h1 : tick cfg c ss with
    | ok ss1 o1 =>
      cases h2 : tick cfg' c ss with
      | ok ss2 o2 =>
        rw [h1, h2] at hte
        simp only [TickRes.erase, TickRes.ok.injEq, and_true] at hte
        subst hte
        have hb' := (tick_ok_states hb h1).1
        cases hdn : ss1.all (fun s => s.done) with
        | true =>
          rw [runMergeLoop_tick_ok_done h1 hdn, runMergeLoop_tick_ok_done h2 hdn]
          rfl
        | false =>
          rw [runMergeLoop_tick_ok_cont h1 hdn, runMergeLoop_tick_ok_cont h2 hdn,
            after_erase, after_erase]
          exact ih hb'
      | fail o2 => rw [h1, h2] at hte; simp [TickRes.erase] at hte
      | block o2 => rw [h1, h2] at hte; simp [TickRes.erase] at hte
    | fail o1 =>
      cases h2 : tick cfg' c ss with
      | ok ss2 o2 => rw [h1, h2] at hte; simp [TickRes.erase] at hte
      | fail o2 =>
        rw [runMergeLoop_tick_fail h1, runMergeLoop_tick_fail h2]
        rfl
      | block o2 => rw [h1, h2] at hte; simp [TickRes.erase] at hte
    | block o1 =>
      cases h2 : tick cfg' c ss with
      | ok ss2 o2 => rw [h1, h2] at hte; simp [TickRes.erase] at hte
      | fail o2 => rw [h1, h2] at hte; simp [TickRes.erase] at hte
      | block o2 =>
        rw [runMergeLoop_tick_block h1, runMergeLoop_tick_block h2]
        rfl

/-- A stream that never yields its sentinel keeps the merge loop from ever
stopping normally or failing (for decodable streams). -/
theorem merge_neverYields_notOkFail {cfg : SubConfig} {fuel c : Nat}
    {ss : List StreamState} (hb : ssBufferOK ss = true)
    (hm : ssNoMalformed ss = true) (hny : ∃ s ∈ ss, neverYields s = true) :
    (∀ ce fs out, runMergeLoop cfg fuel c ss ≠ .ok ce fs out) ∧
      (∀ ce out, runMergeLoop cfg fuel c ss ≠ .fail ce out) := by
  induction fuel generalizing c ss with
  | zero => exact ⟨fun ce fs out h => (nomatch h), fun ce out h => (nomatch h)⟩
  | succ f ih =>
    rcases hny with ⟨s, hs, hnys⟩
    cases htk : tick cfg c ss with
    | ok ss' out' =>
      obtain ⟨hb', _, hm', _, _⟩ := tick_ok_states hb htk
      have hbs : bufferOK s.buffer = true := by
        have := hb
        simp only [ssBufferOK, List.all_eq_true] at this
        exact this s hs
      have hms : (remainingOf s).all (fun x => !isMalformedLine x) = true := by
        have h0 := hm
        simp only [ssNoMalformed, List.all_eq_true] at h0
        exact List.all_eq_true.2 (h0 s hs)
      rcases forall₂_mem_left (tick_ok_forall₂ htk) hs with ⟨s1, hs1, o, hds⟩
      have hny1 : neverYields s1 = true := by
        rcases @drainStream_neverYields cfg c _ hbs hnys hms with
          ⟨ob, hob⟩ | ⟨s1', o', hds', hny'⟩
        · rw [hds] at hob; cases hob
        · rw [hds] at hds'
          cases hds'
          exact hny'
      have hnd1 : s1.done = false := by
        have := (Bool.and_eq_true_iff.1 hny1).2
        simpa using this
      cases hdn : ss'.all (fun s => s.done) with
      | true =>
        exfalso
        have := List.all_eq_true.1 hdn s1 hs1
        rw [hnd1] at this
        cases this
      | false =>
        have ihr := ih hb' (hm' hm) ⟨s1, hs1, hny1⟩ (c := c + 1)
        constructor
        · intro ce fs out h
          rw [runMergeLoop_tick_ok_cont htk hdn] at h
          rcases after_eq_ok h with ⟨o', hrec, _⟩
          exact ihr.1 ce fs o' hrec
        · intro ce out h
          rw [runMergeLoop_tick_ok_cont htk hdn] at h
          rcases after_eq_fail h with ⟨o', hrec, _⟩
          exact ihr.2 ce o' hrec
    | fail out' => exact absurd htk (fun hx => tick_noFail hb hm hx)
    | block out' =>
      rw [runMergeLoop_tick_block htk]
      exact ⟨fun ce fs out h => (nomatch h), fun ce out h => (nomatch h)⟩

/-- A stream holding an unshielded malformed row keeps the merge loop from
ever stopping normally. -/
theorem merge_unshielded_notOk {cfg : SubConfig} {fuel c : Nat}
    {ss : List StreamState} (hb : ssBufferOK ss = true)
    (hu : ∃ s ∈ ss, unshieldedMalformed (remainingOf s) = true ∧ s.done = false) :
    ∀ ce fs out, runMergeLoop cfg fuel c ss ≠ .ok ce fs out := by
  induction fuel generalizing c ss with
  | zero => exact fun ce fs out h => nomatch h
  | succ f ih =>
    rcases hu with ⟨s, hs, hus, hnds⟩
    cases htk : tick cfg c ss with
    | ok ss' out' =>
      have hb' := (tick_ok_states hb htk).1
      have hbs : bufferOK s.buffer = true := by
        have := hb
        simp only [ssBufferOK, List.all_eq_true] at this
        exact this s hs
      rcases forall₂_mem_left (tick_ok_forall₂ htk) hs with ⟨s1, hs1, o, hds⟩
      have hinv : unshieldedMalformed (remainingOf s1) = true ∧ s1.done = false := by
        rcases @drainStream_unshielded cfg c _ hbs hus with
          ⟨ob, hob⟩ | ⟨s1', o', hds', hu', hdd⟩
        · rw [hds] at hob; cases hob
        · rw [hds] at hds'
          cases hds'
          exact ⟨hu', hdd.trans hnds⟩
      cases hdn : ss'.all (fun s => s.done) with
      | true =>
        exfalso
        have := List.all_eq_true.1 hdn s1 hs1
        rw [hinv.2] at this
        cases this
      | false =>
        intro ce fs out h
        rw [runMergeLoop_tick_ok_cont htk hdn] at h
        rcases after_eq_ok h with ⟨o', hrec, _⟩
        exact ih hb' ⟨s1, hs1, hinv⟩ ce fs o' hrec
    | fail out' =>
      rw [runMergeLoop_tick_fail htk]
      exact fun ce fs out h => nomatch h
    | block out' =>
      rw [runMergeLoop_tick_block htk]
      exact fun ce fs out h => nomatch h

/-- With enough fuel, closing channels and an unshielded malformed row, the
merge loop must exit through the fatal decode-error path. -/
theorem merge_unshielded_fail {cfg : SubConfig} {fuel c : Nat}
    {ss : List StreamState} (hb : ssBufferOK ss = true)
    (hcl : ssCloses ss = true) (hfl : fuelNeed c ss ≤ fuel)
    (hu : ∃ s ∈ ss, unshieldedMalformed (remainingOf s) = true ∧ s.done = false) :
    ∃ ce out, runMergeLoop cfg fuel c ss = .fail ce out := by
  cases hres : runMergeLoop cfg fuel c ss with
  | ok ce fs out => exact absurd hres (merge_unshielded_notOk hb hu ce fs out)
  | fail ce out => exact ⟨ce, out, rfl⟩
  | block ce out => exact absurd hres (fun hx => merge_noBlock hb hcl hx)
  | outOfFuel out =>
    have := @merge_noFuel cfg _ _ _ hb hfl
    rw [hres] at this
    cases this

/-- The merge loop on streams tracking pure, monotone logs emits exactly the
canonical stream-major, key-ordered merge of the logs. -/
theorem merge_tracks {cfg : SubConfig} {fuel : Nat} {logs : List (List LogLine)}
    {c : Nat} {ss : List StreamState} {ce : Nat} {fs : List StreamState}
    {out : List Emission} (hp : ∀ log ∈ logs, pureLog log = true)
    (hm : ∀ log ∈ logs, monoLog log = true) (ht : TracksAll c logs ss)
    (h : runMergeLoop cfg fuel c ss = .ok ce fs out) :
    out = mergeSpecOut cfg c (ce + 1 - c) logs := by
  induction fuel generalizing c ss ce fs out with
  | zero => cases h
  | succ f ih =>
    rcases @tick_tracks cfg _ _ _ hp hm ht with ⟨ss', htk, ht'⟩
    cases hdn : ss'.all (fun s => s.done) with
    | true =>
      rw [runMergeLoop_tick_ok_done htk hdn] at h
      cases h
      have h1 : c + 1 - c = 1 := by omega
      rw [h1]
      simp [mergeSpecOut, List.range', tickSpecOut]
    | false =>
      rw [runMergeLoop_tick_ok_cont htk hdn] at h
      rcases after_eq_ok h with ⟨o', hrec, rfl⟩
      have hge : c + 1 ≤ ce := merge_cursor_ge (by rw [hrec]; rfl)
      have hih := ih ht' hrec
      have h1 : ce + 1 - c = (ce - c) + 1 := by omega
      have h2 : ce + 1 - (c + 1) = ce - c := by omega
      rw [h1, hih, h2]
      simp only [mergeSpecOut]
      rw [List.range'_succ, List.flatMap_cons]

/-- If the merge loop stops normally, it ticked at every cursor value from
its entry cursor to its final cursor, each exactly once and in order. -/
theorem merge_traceEq {cfg : SubConfig} {fuel c : Nat} {ss : List StreamState}
    {ce : Nat} {fs : List StreamState} {out : List Emission}
    (h : runMergeLoop cfg fuel c ss = .ok ce fs out) :
    mergeTrace cfg fuel c ss = List.range' c (ce + 1 - c) := by
  induction fuel generalizing c ss ce fs out with
  | zero => cases h
  | succ f ih =>
    cases htk : tick cfg c ss with
    | ok ss' out' =>
      cases hdn : ss'.all (fun s => s.done) with
      | true =>
        rw [runMergeLoop_tick_ok_done htk hdn] at h
        cases h
        have h1 : c + 1 - c = 1 := by omega
        rw [h1]
        simp [mergeTrace, htk, hdn, List.range']
      | false =>
        rw [runMergeLoop_tick_ok_cont htk hdn] at h
        rcases after_eq_ok h with ⟨o', hrec, _⟩
        have hge : c + 1 ≤ ce := merge_cursor_ge (by rw [hrec]; rfl)
        have h1 : ce + 1 - c = (ce - c) + 1 := by omega
        have h2 : ce + 1 - (c + 1) = ce - c := by omega
        rw [h1, List.range'_succ]
        have := ih hrec
        rw [h2] at this
        simp [mergeTrace, htk, hdn, this]
    | fail out' => rw [runMergeLoop_tick_fail htk] at h; cases h
    | block out' => rw [runMergeLoop_tick_block htk] at h; cases h

/-! ### Facts about the replay session (segment sequencing) -/

theorem prependOut_emitted (o : List Emission) (r : SimRes) :
    (SimRes.prependOut o r).emitted = o ++ r.emitted := by
  cases r <;> rfl

theorem prependOut_cursor? (o : List Emission) (r : SimRes) :
    (SimRes.prependOut o r).cursor? = r.cursor? := by
  cases r <;> rfl

theorem prependOut_erase (o : List Emission) (r : SimRes) :
    (SimRes.prependOut o r).erase = r.erase := by
  cases r <;> rfl

theorem prependOut_eq_ok {o : List Emission} {r : SimRes} {ce : Nat}
    {out : List Emission} (h : SimRes.prependOut o r = .ok ce out) :
    ∃ o', r = .ok ce o' ∧ out = o ++ o' := by
  cases r <;> simp only [SimRes.prependOut] at h <;> cases h
  exact ⟨_, rfl, rfl⟩

theorem prependOut_eq_fail {o : List Emission} {r : SimRes} {ce : Nat}
    {out : List Emission} (h : SimRes.prependOut o r = .fail ce out) :
    ∃ o', r = .fail ce o' ∧ out = o ++ o' := by
  cases r <;> simp only [SimRes.prependOut] at h <;> cases h
  exact ⟨_, rfl, rfl⟩

theorem prependOut_eq_block {o : List Emission} {r : SimRes} {ce : Nat}
    {out : List Emission} (h : SimRes.prependOut o r = .block ce out) :
    ∃ o', r = .block ce o' ∧ out = o ++ o' := by
  cases r <;> simp only [SimRes.prependOut] at h <;> cases h
  exact ⟨_, rfl, rfl⟩

theorem prependOut_eq_outOfFuel {o : List Emission} {r : SimRes}
    {out : List Emission} (h : SimRes.prependOut o r = .outOfFuel out) :
    ∃ o', r = .outOfFuel o' ∧ out = o ++ o' := by
  cases r <;> simp only [SimRes.prependOut] at h <;> cases h
  exact ⟨_, rfl, rfl⟩

theorem runSegments_cons_ok {cfg : SubConfig} {fuel c : Nat}
    {seg : List (List LogLine)} {rest : List (List (List LogLine))}
    {c' : Nat} {fs : List StreamState} {o : List Emission}
    (hm : runMergeLoop cfg fuel c (seg.map initStream) = .ok c' fs o) :
    runSegments cfg fuel c (seg :: rest) =
      SimRes.prependOut o (runSegments cfg fuel c' rest) := by
  simp [runSegments, hm]

theorem runSegments_cons_fail {cfg : SubConfig} {fuel c : Nat}
    {seg : List (List LogLine)} {rest : List (List (List LogLine))}
    {ce : Nat} {o : List Emission}
    (hm : runMergeLoop cfg fuel c (seg.map initStream) = .fail ce o) :
    runSegments cfg fuel c (seg :: rest) = .fail ce o := by
  simp [runSegments, hm]

theorem runSegments_cons_block {cfg : SubConfig} {fuel c : Nat}
    {seg : List (List LogLine)} {rest : List (List (List LogLine))}
    {ce : Nat} {o : List Emission}
    (hm : runMergeLoop cfg fuel c (seg.map initStream) = .block ce o) :
    runSegments cfg fuel c (seg :: rest) = .block ce o := by
  simp [runSegments, hm]

theorem runSegments_cons_outOfFuel {cfg : SubConfig} {fuel c : Nat}
    {seg : List (List LogLine)} {rest : List (List (List LogLine))}
    {o : List Emission}
    (hm : runMergeLoop cfg fuel c (seg.map initStream) = .outOfFuel o) :
    runSegments cfg fuel c (seg :: rest) = .outOfFuel o := by
  simp [runSegments, hm]

theorem initStreams_bufferOK (seg : List (List LogLine)) :
    ssBufferOK (seg.map initStream) = true := by
  simp only [ssBufferOK, List.all_eq_true]
  intro s hs
  rcases List.mem_map.1 hs with ⟨log, _, rfl⟩
  rfl

theorem initStreams_closes (seg : List (List LogLine)) :
    ssCloses (seg.map initStream) = true := by
  simp only [ssCloses, List.all_eq_true]
  intro s hs
  rcases List.mem_map.1 hs with ⟨log, _, rfl⟩
  rfl

theorem pure_noMalformed {log : List LogLine} (hp : pureLog log = true) :
    log.all (fun x => !isMalformedLine x) = true := by
  simp only [pureLog, List.all_eq_true] at hp ⊢
  intro x hx
  have := hp x hx
  cases x <;> simp_all [isRecordLine, isMalformedLine]

theorem initStreams_noMalformed {seg : List (List LogLine)}
    (h : ∀ log ∈ seg, log.all (fun x => !isMalformedLine x) = true) :
    ssNoMalformed (seg.map initStream) = true := by
  simp only [ssNoMalformed, List.all_eq_true]
  intro s hs
  rcases List.mem_map.1 hs with ⟨log, hlog, rfl⟩
  exact fun x hx => List.all_eq_true.1 (h log hlog) x hx

theorem mem_le_foldrMax {x : Nat} {l : List Nat} (hx : x ∈ l) :
    x ≤ l.foldr Nat.max 0 := by
  induction l with
  | nil => cases hx
  | cons a t ih =>
    rcases List.mem_cons.1 hx with rfl | hx'
    · exact Nat.le_max_left _ _
    · exact le_trans (ih hx') (Nat.le_max_right _ _)

theorem fuelNeed_le_segFuel (c : Nat) (seg : List (List LogLine)) :
    fuelNeed c (seg.map initStream) ≤ segFuel seg := by
  simp only [fuelNeed, segFuel]
  omega

theorem segFuel_le_archiveFuel {seg : List (List LogLine)}
    {segs : List (List (List LogLine))} (h : seg ∈ segs) :
    segFuel seg ≤ archiveFuel segs :=
  mem_le_foldrMax (List.mem_map_of_mem segFuel h)

theorem archiveFuel_rest_le (seg : List (List LogLine))
    (rest : List (List (List LogLine))) :
    archiveFuel rest ≤ archiveFuel (seg :: rest) := by
  simp only [archiveFuel, List.map_cons, List.foldr_cons]
  exact Nat.le_max_right _ _

theorem mem_segSlots {seg : List (List LogLine)} {x : LogLine}
    {log : List LogLine} (hlog : log ∈ seg) (hx : x ∈ log)
    (hr : isRecordLine x = true) : lineSlot x ∈ segSlots seg := by
  simp only [segSlots, List.mem_flatMap]
  exact ⟨log, hlog, List.mem_map_of_mem lineSlot (List.mem_filter.2 ⟨hx, hr⟩)⟩

theorem initStreams_tracksAll {c0 : Nat} {seg : List (List LogLine)}
    (hp : segPure seg) (hc : allSlotsGE c0 seg) :
    TracksAll c0 seg (seg.map initStream) := by
  induction seg with
  | nil => exact List.Forall₂.nil
  | cons log rest ih =>
    refine List.Forall₂.cons ?_ (ih (fun l hl => hp l (List.mem_cons_of_mem _ hl))
      (fun a ha => hc a ?_))
    · refine ⟨rfl, rfl, ?_, fun hdn => by cases hdn⟩
      show (initStream log).buffer.toList ++ (initStream log).pending = _
      cases log with
      | nil => rfl
      | cons x t =>
        have hrx : isRecordLine x = true := by
          have := hp (x :: t) (List.mem_cons_self _ _)
          exact (pureLog_cons this).1
        have hcx : c0 ≤ lineSlot x :=
          hc _ (mem_segSlots (List.mem_cons_self _ _) (List.mem_cons_self _ _) hrx)
        simp only [initStream, Option.toList, List.nil_append, List.dropWhile_cons]
        simp [Nat.not_lt_of_le hcx]
    · rcases List.mem_flatMap.1 ha with ⟨l, hl, hal⟩
      exact List.mem_flatMap.2 ⟨l, List.mem_cons_of_mem _ hl, hal⟩

theorem segs_cursor_ge {cfg : SubConfig} {fuel c : Nat}
    {segs : List (List (List LogLine))} {ce : Nat}
    (h : (runSegments cfg fuel c segs).cursor? = some ce) : c ≤ ce := by
  induction segs generalizing c ce with
  | nil => cases h; exact le_refl _
  | cons seg rest ih =>
    cases hm : runMergeLoop cfg fuel c (seg.map initStream) with
    | ok c' fs o =>
      rw [runSegments_cons_ok hm, prependOut_cursor?] at h
      exact le_trans (merge_cursor_ge (by rw [hm]; rfl)) (ih h)
    | fail ce' o =>
      rw [runSegments_cons_fail hm] at h
      cases h
      exact merge_cursor_ge (by rw [hm]; rfl)
    | block ce' o =>
      rw [runSegments_cons_block hm] at h
      cases h
      exact merge_cursor_ge (by rw [hm]; rfl)
    | outOfFuel o =>
      rw [runSegments_cons_outOfFuel hm] at h
      cases h

theorem segs_emitted_le {cfg : SubConfig} {fuel c : Nat}
    {segs : List (List (List LogLine))} {ce : Nat}
    (h : (runSegments cfg fuel c segs).cursor? = some ce) :
    ∀ e ∈ (runSegments cfg fuel c segs).emitted, e.slot ≤ ce := by
  induction segs generalizing c ce with
  | nil => intro e he; cases he
  | cons seg rest ih =>
    cases hm : runMergeLoop cfg fuel c (seg.map initStream) with
    | ok c' fs o =>
      rw [runSegments_cons_ok hm, prependOut_cursor?] at h
      rw [runSegments_cons_ok hm, prependOut_emitted]
      intro e he
      rcases List.mem_append.1 he with he | he
      · have h1 : e.slot ≤ c' :=
          merge_emitted_le (initStreams_bufferOK seg)
            (by rw [hm]; rfl) e (by rw [hm]; exact he)
        exact le_trans h1 (segs_cursor_ge h)
      · exact ih h e he
    | fail ce' o =>
      rw [runSegments_cons_fail hm] at h
      cases h
      rw [runSegments_cons_fail hm]
      intro e he
      exact merge_emitted_le (initStreams_bufferOK seg)
        (by rw [hm]; rfl) e (by rw [hm]; exact he)
    | block ce' o =>
      rw [runSegments_cons_block hm] at h
      cases h
      rw [runSegments_cons_block hm]
      intro e he
      exact merge_emitted_le (initStreams_bufferOK seg)
        (by rw [hm]; rfl) e (by rw [hm]; exact he)
    | outOfFuel o =>
      rw [runSegments_cons_outOfFuel hm] at h
      cases h

theorem segs_noBlock {cfg : SubConfig} {fuel c : Nat}
    {segs : List (List (List LogLine))} {ce : Nat} {out : List Emission}
    (h : runSegments cfg fuel c segs = .block ce out) : False := by
  induction segs generalizing c ce out with
  | nil => cases h
  | cons seg rest ih =>
    cases hm : runMergeLoop cfg fuel c (seg.map initStream) with
    | ok c' fs o =>
      rw [runSegments_cons_ok hm] at h
      rcases prependOut_eq_block h with ⟨o', hrest, _⟩
      exact ih hrest
    | fail ce' o => rw [runSegments_cons_fail hm] at h; cases h
    | block ce' o =>
      exact merge_noBlock (initStreams_bufferOK seg) (initStreams_closes seg) hm
    | outOfFuel o => rw [runSegments_cons_outOfFuel hm] at h; cases h

theorem segs_noFuel {cfg : SubConfig} {fuel c : Nat}
    {segs : List (List (List LogLine))} {out : List Emission}
    (hfl : archiveFuel segs ≤ fuel)
    (h : runSegments cfg fuel c segs = .outOfFuel out) : False := by
  induction segs generalizing c out with
  | nil => cases h
  | cons seg rest ih =>
    have hsf : fuelNeed c (seg.map initStream) ≤ fuel :=
      le_trans (fuelNeed_le_segFuel c seg)
        (le_trans (segFuel_le_archiveFuel (List.mem_cons_self _ _)) hfl)
    cases hm : runMergeLoop cfg fuel c (seg.map initStream) with
    | ok c' fs o =>
      rw [runSegments_cons_ok hm] at h
      rcases prependOut_eq_outOfFuel h with ⟨o', hrest, _⟩
      exact ih (le_trans (archiveFuel_rest_le seg rest) hfl) hrest
    | fail ce' o => rw [runSegments_cons_fail hm] at h; cases h
    | block ce' o => rw [runSegments_cons_block hm] at h; cases h
    | outOfFuel o =>
      have := @merge_noFuel cfg _ _ _ (initStreams_bufferOK seg) hsf
      rw [hm] at this
      cases this

theorem segs_wf {cfg : SubConfig} {fuel c : Nat}
    {segs : List (List (List LogLine))} :
    ∀ e ∈ (runSegments cfg fuel c segs).emitted, emissionWF cfg e := by
  induction segs generalizing c with
  | nil => intro e he; cases he
  | cons seg rest ih =>
    cases hm : runMergeLoop cfg fuel c (seg.map initStream) with
    | ok c' fs o =>
      rw [runSegments_cons_ok hm, prependOut_emitted]
      intro e he
      rcases List.mem_append.1 he with he | he
      · exact merge_wf (initStreams_bufferOK seg) e (by rw [hm]; exact he)
      · exact ih e he
    | fail ce' o =>
      rw [runSegments_cons_fail hm]
      intro e he
      exact merge_wf (initStreams_bufferOK seg) e (by rw [hm]; exact he)
    | block ce' o =>
      rw [runSegments_cons_block hm]
      intro e he
      exact merge_wf (initStreams_bufferOK seg) e (by rw [hm]; exact he)
    | outOfFuel o =>
      rw [runSegments_cons_outOfFuel hm]
      intro e he
      exact merge_wf (initStreams_bufferOK seg) e (by rw [hm]; exact he)

theorem segs_zero {fuel c : Nat} {segs : List (List (List LogLine))} :
    (runSegments ⟨0, 0⟩ fuel c segs).emitted = [] := by
  induction segs generalizing c with
  | nil => rfl
  | cons seg rest ih =>
    have hz := @merge_zero fuel c _ (initStreams_bufferOK seg)
    cases hm : runMergeLoop ⟨0, 0⟩ fuel c (seg.map initStream) with
    | ok c' fs o =>
      rw [hm] at hz
      simp only [MergeRes.emitted] at hz
      subst hz
      rw [runSegments_cons_ok hm, prependOut_emitted, ih]
      rfl
    | fail ce' o =>
      rw [hm] at hz
      rw [runSegments_cons_fail hm]
      exact hz
    | block ce' o =>
      rw [hm] at hz
      rw [runSegments_cons_block hm]
      exact hz
    | outOfFuel o =>
      rw [hm] at hz
      rw [runSegments_cons_outOfFuel hm]
      exact hz

theorem segs_erase {cfg cfg' : SubConfig} {fuel c : Nat}
    {segs : List (List (List LogLine))} :
    (runSegments cfg fuel c segs).erase = (runSegments cfg' fuel c segs).erase := by
  induction segs generalizing c with
  | nil => rfl
  | cons seg rest ih =>
    have hme := @merge_erase cfg cfg' fuel c _ (initStreams_bufferOK seg)
    cases h1 : runMergeLoop cfg fuel c (seg.map initStream) with
    | ok c1 fs1 o1 =>
      cases h2 : runMergeLoop cfg' fuel c (seg.map initStream) with
      | ok c2 fs2 o2 =>
        rw [h1, h2] at hme
        simp only [MergeRes.erase, MergeRes.ok.injEq, and_true] at hme
        obtain ⟨rfl, rfl⟩ := hme
        rw [runSegments_cons_ok h1, runSegments_cons_ok h2,
          prependOut_erase, prependOut_erase]
        exact ih
      | fail c2 o2 => rw [h1, h2] at hme; simp [MergeRes.erase] at hme
      | block c2 o2 => rw [h1, h2] at hme; simp [MergeRes.erase] at hme
      | outOfFuel o2 => rw [h1, h2] at hme; simp [MergeRes.erase] at hme
    | fail c1 o1 =>
      cases h2 : runMergeLoop cfg' fuel c (seg.map initStream) with
      | ok c2 fs2 o2 => rw [h1, h2] at hme; simp [MergeRes.erase] at hme
      | fail c2 o2 =>
        rw [h1, h2] at hme
        simp only [MergeRes.erase, MergeRes.fail.injEq, and_true] at hme
        subst hme
        rw [runSegments_cons_fail h1, runSegments_cons_fail h2]
        rfl
      | block c2 o2 => rw [h1, h2] at hme; simp [MergeRes.erase] at hme
      | outOfFuel o2 => rw [h1, h2] at hme; simp [MergeRes.erase] at hme
    | block c1 o1 =>
      cases h2 : runMergeLoop cfg' fuel c (seg.map initStream) with
      | ok c2 fs2 o2 => rw [h1, h2] at hme; simp [MergeRes.erase] at hme
      | fail c2 o2 => rw [h1, h2] at hme; simp [MergeRes.erase] at hme
      | block c2 o2 =>
        rw [h1, h2] at hme
        simp only [MergeRes.erase, MergeRes.block.injEq, and_true] at hme
        subst hme
        rw [runSegments_cons_block h1, runSegments_cons_block h2]
        rfl
      | outOfFuel o2 => rw [h1, h2] at hme; simp [MergeRes.erase] at hme
    | outOfFuel o1 =>
      cases h2 : runMergeLoop cfg' fuel c (seg.map initStream) with
      | ok c2 fs2 o2 => rw [h1, h2] at hme; simp [MergeRes.erase] at hme
      | fail c2 o2 => rw [h1, h2] at hme; simp [MergeRes.erase] at hme
      | block c2 o2 => rw [h1, h2] at hme; simp [MergeRes.erase] at hme
      | outOfFuel o2 =>
        rw [runSegments_cons_outOfFuel h1, runSegments_cons_outOfFuel h2]
        rfl

theorem segs_unshielded_fail {cfg : SubConfig} {fuel c : Nat}
    {segs : List (List (List LogLine))} (hfl : archiveFuel segs ≤ fuel)
    (hu : ∃ seg ∈ segs, ∃ log ∈ seg, unshieldedMalformed log = true) :
    ∃ cf out, runSegments cfg fuel c segs = .fail cf out := by
  induction segs generalizing c with
  | nil => rcases hu with ⟨seg, hseg, _⟩; cases hseg
  | cons seg rest ih =>
    have hsf : fuelNeed c (seg.map initStream) ≤ fuel :=
      le_trans (fuelNeed_le_segFuel c seg)
        (le_trans (segFuel_le_archiveFuel (List.mem_cons_self _ _)) hfl)
    cases hm : runMergeLoop cfg fuel c (seg.map initStream) with
    | ok c' fs o =>
      rcases hu with ⟨seg', hseg', log, hlog, hulog⟩
      rcases List.mem_cons.1 hseg' with rfl | hseg''
      · exfalso
        refine merge_unshielded_notOk (initStreams_bufferOK seg')
          ⟨initStream log, List.mem_map_of_mem initStream hlog, ?_, rfl⟩ c' fs o hm
        exact hulog
      · rcases ih (le_trans (archiveFuel_rest_le seg rest) hfl)
          ⟨seg', hseg'', log, hlog, hulog⟩ (c := c') with ⟨cf, out', hrest⟩
        refine ⟨cf, o ++ out', ?_⟩
        rw [runSegments_cons_ok hm, hrest]
        rfl
    | fail ce' o => exact ⟨ce', o, runSegments_cons_fail hm⟩
    | block ce' o =>
      exact absurd hm
        (fun hx => merge_noBlock (initStreams_bufferOK seg) (initStreams_closes seg) hx)
    | outOfFuel o =>
      exfalso
      have := @merge_noFuel cfg _ _ _ (initStreams_bufferOK seg) hsf
      rw [hm] at this
      cases this

/-! ### The canonical merge output is ordered -/

theorem tickSpec_slot {cfg : SubConfig} {c : Nat} {logs : List (List LogLine)}
    {e : Emission} (he : e ∈ tickSpecOut cfg c logs) :
    e.slot = c ∧ e.slot ∈ segSlots logs := by
  rcases List.mem_flatMap.1 he with ⟨log, hlog, he'⟩
  rcases List.mem_flatMap.1 he' with ⟨x, hx, hex⟩
  have hxf := List.mem_filter.1 hx
  have hxc : lineSlot x = c := by simpa using hxf.2
  cases x with
  | empty => cases hex
  | malformed raw => cases hex
  | record d raw =>
    have hes : e.slot = d.slot := emitsFor_slot hex
    have hds : d.slot = c := by simpa [lineSlot] using hxc
    constructor
    · rw [hes, hds]
    · rw [hes]
      have : lineSlot (LogLine.record d raw) ∈ segSlots logs :=
        mem_segSlots hlog hxf.1 rfl
      simpa [lineSlot] using this

theorem mergeSpec_mem {cfg : SubConfig} {c0 n : Nat} {logs : List (List LogLine)}
    {e : Emission} (he : e ∈ mergeSpecOut cfg c0 n logs) :
    c0 ≤ e.slot ∧ e.slot ∈ segSlots logs := by
  rcases List.mem_flatMap.1 he with ⟨c', hc', he'⟩
  have hr := (List.mem_range'_1.1 hc').1
  rcases tickSpec_slot he' with ⟨hslot, hmem⟩
  exact ⟨hslot ▸ hr, hmem⟩

theorem slotsSorted_const {k : Nat} {A : List Emission}
    (h : ∀ e ∈ A, e.slot = k) : slotsSorted A = true := by
  induction A with
  | nil => rfl
  | cons a t ih =>
    cases t with
    | nil => rfl
    | cons b t' =>
      have hab : a.slot ≤ b.slot := by
        rw [h a (List.mem_cons_self _ _), h b (List.mem_cons_of_mem _ (List.mem_cons_self _ _))]
      simp only [slotsSorted, Bool.and_eq_true, decide_eq_true_eq]
      exact ⟨hab, ih (fun e hee => h e (List.mem_cons_of_mem _ hee))⟩

theorem slotsSorted_append {A B : List Emission} (hA : slotsSorted A = true)
    (hB : slotsSorted B = true)
    (hAB : ∀ a ∈ A, ∀ b ∈ B, a.slot ≤ b.slot) :
    slotsSorted (A ++ B) = true := by
  induction A with
  | nil => simpa using hB
  | cons a A' ih =>
    cases hA' : A' with
    | nil =>
      cases B with
      | nil => rfl
      | cons b t =>
        simp only [List.nil_append, List.cons_append, slotsSorted,
          Bool.and_eq_true, decide_eq_true_eq]
        exact ⟨hAB a (List.mem_cons_self _ _) b (List.mem_cons_self _ _), hB⟩
    | cons a' t' =>
      subst hA'
      have hA2 : a.slot ≤ a'.slot ∧ slotsSorted (a' :: t') = true := by
        simpa [slotsSorted] using hA
      simp only [List.cons_append, slotsSorted, Bool.and_eq_true, decide_eq_true_eq]
      refine ⟨hA2.1, ?_⟩
      have := ih hA2.2 (fun x hx b hb => hAB x (List.mem_cons_of_mem _ hx) b hb)
      simpa using this

theorem mergeSpec_sorted {cfg : SubConfig} {n : Nat} {c0 : Nat}
    {logs : List (List LogLine)} :
    slotsSorted (mergeSpecOut cfg c0 n logs) = true := by
  induction n generalizing c0 with
  | zero => rfl
  | succ n ih =>
    rw [mergeSpecOut, List.range'_succ, List.flatMap_cons]
    refine slotsSorted_append (slotsSorted_const (fun e he => (tickSpec_slot he).1))
      ih ?_
    intro a ha b hb
    have h1 : a.slot = c0 := (tickSpec_slot ha).1
    have h2 : c0 + 1 ≤ b.slot := (mergeSpec_mem (n := n) hb).1
    omega

theorem natMax_left {a b : Nat} (h : b ≤ a) : Nat.max a b = a :=
  Nat.max_eq_left h

theorem natMax_right {a b : Nat} (h : a ≤ b) : Nat.max a b = b :=
  Nat.max_eq_right h

theorem maxSlotList_zero_or_ex (l : List LogLine) :
    maxSlotList l = 0 ∨ ∃ x ∈ l, maxSlotList l = lineSlot x := by
  induction l with
  | nil => exact Or.inl rfl
  | cons a t ih =>
    have hmax : maxSlotList (a :: t) = Nat.max (lineSlot a) (maxSlotList t) := rfl
    rcases le_total (lineSlot a) (maxSlotList t) with h1 | h1
    · rcases ih with h2 | ⟨x, hx, h2⟩
      · refine Or.inr ⟨a, List.mem_cons_self _ _, ?_⟩
        rw [hmax, h2]
        exact natMax_left (Nat.zero_le _)
      · refine Or.inr ⟨x, List.mem_cons_of_mem _ hx, ?_⟩
        rw [hmax, natMax_right h1, h2]
    · refine Or.inr ⟨a, List.mem_cons_self _ _, ?_⟩
      rw [hmax, natMax_left h1]

theorem ssMaxSlot_zero_or_ex (ss : List StreamState) :
    ssMaxSlot ss = 0 ∨ ∃ s ∈ ss, ssMaxSlot ss = maxSlotList (remainingOf s) := by
  induction ss with
  | nil => exact Or.inl rfl
  | cons a t ih =>
    have hmax : ssMaxSlot (a :: t) =
        Nat.max (maxSlotList (remainingOf a)) (ssMaxSlot t) := rfl
    rcases le_total (maxSlotList (remainingOf a)) (ssMaxSlot t) with h1 | h1
    · rcases ih with h2 | ⟨s, hs, h2⟩
      · refine Or.inr ⟨a, List.mem_cons_self _ _, ?_⟩
        rw [hmax, h2]
        exact natMax_left (Nat.zero_le _)
      · refine Or.inr ⟨s, List.mem_cons_of_mem _ hs, ?_⟩
        rw [hmax, natMax_right h1, h2]
    · refine Or.inr ⟨a, List.mem_cons_self _ _, ?_⟩
      rw [hmax, natMax_left h1]

theorem initMaxSlot_bound {seg : List (List LogLine)} (hp : segPure seg) :
    ssMaxSlot (seg.map initStream) = 0 ∨
      ssMaxSlot (seg.map initStream) ∈ segSlots seg := by
  rcases ssMaxSlot_zero_or_ex (seg.map initStream) with h | ⟨s, hs, hse⟩
  · exact Or.inl h
  · rcases List.mem_map.1 hs with ⟨log, hlog, rfl⟩
    rcases maxSlotList_zero_or_ex (remainingOf (initStream log)) with h2 | ⟨x, hx, h2⟩
    · exact Or.inl (by rw [hse, h2])
    · have hxl : x ∈ log := hx
      have hrx : isRecordLine x = true := by
        have := hp log hlog
        simp only [pureLog, List.all_eq_true] at this
        exact this x hxl
      exact Or.inr (by rw [hse, h2]; exact mem_segSlots hlog hxl hrx)

/-- A normally completed multi-segment run is globally ordered by temporal
key, provided each log is pure and monotone and the segments' key ranges
are pairwise ordered. -/
theorem segs_sorted {cfg : SubConfig} {fuel : Nat}
    {segs : List (List (List LogLine))} {c ce : Nat} {out : List Emission}
    (hp : ∀ seg ∈ segs, segPure seg) (hm : ∀ seg ∈ segs, segMono seg)
    (hx : segsOrdered segs) (hc : ∀ seg ∈ segs, allSlotsGE c seg)
    (h : runSegments cfg fuel c segs = .ok ce out) :
    slotsSorted out = true ∧ ∀ e ∈ out, ∃ seg ∈ segs, e.slot ∈ segSlots seg := by
  induction segs generalizing c ce out with
  | nil =>
    cases h
    exact ⟨rfl, fun e he => (by cases he)⟩
  | cons seg rest ih =>
    cases hmg : runMergeLoop cfg fuel c (seg.map initStream) with
    | ok c' fs o =>
      rw [runSegments_cons_ok hmg] at h
      rcases prependOut_eq_ok h with ⟨o', hrest, rfl⟩
      have hchar : o = mergeSpecOut cfg c (c' + 1 - c) seg :=
        merge_tracks (hp seg (List.mem_cons_self _ _)) (hm seg (List.mem_cons_self _ _))
          (initStreams_tracksAll (hp seg (List.mem_cons_self _ _))
            (hc seg (List.mem_cons_self _ _))) hmg
      have hrel : ∀ seg' ∈ rest, ∀ a ∈ segSlots seg, ∀ b ∈ segSlots seg', a ≤ b :=
        fun seg' hseg' => (List.pairwise_cons.1 hx).1 seg' hseg'
      have hc' : ∀ seg' ∈ rest, allSlotsGE c' seg' := by
        intro seg' hseg' b hb
        have hbnd : c' ≤ Nat.max c (ssMaxSlot (seg.map initStream)) :=
          merge_ok_cursor_bound (initStreams_bufferOK seg) hmg
        refine le_trans hbnd (Nat.max_le.2 ⟨hc seg' (List.mem_cons_of_mem _ hseg') b hb, ?_⟩)
        rcases initMaxSlot_bound (hp seg (List.mem_cons_self _ _)) with h0 | hmem
        · rw [h0]; exact Nat.zero_le _
        · exact hrel seg' hseg' _ hmem b hb
      obtain ⟨hs2, hmem2⟩ := ih (fun s hs => hp s (List.mem_cons_of_mem _ hs))
        (fun s hs => hm s (List.mem_cons_of_mem _ hs))
        (List.pairwise_cons.1 hx).2 hc' hrest
      constructor
      · refine slotsSorted_append ?_ hs2 ?_
        · rw [hchar]; exact mergeSpec_sorted
        · intro a ha b hb
          have hams : a.slot ∈ segSlots seg := by
            rw [hchar] at ha
            exact (mergeSpec_mem ha).2
          rcases hmem2 b hb with ⟨seg', hseg', hbs⟩
          exact hrel seg' hseg' _ hams _ hbs
      · intro e he
        rcases List.mem_append.1 he with he | he
        · refine ⟨seg, List.mem_cons_self _ _, ?_⟩
          rw [hchar] at he
          exact (mergeSpec_mem he).2
        · rcases hmem2 e he with ⟨seg', hseg', hes⟩
          exact ⟨seg', List.mem_cons_of_mem _ hseg', hes⟩
    | fail ce' o => rw [runSegments_cons_fail hmg] at h; cases h
    | block ce' o => rw [runSegments_cons_block hmg] at h; cases h
    | outOfFuel o => rw [runSegments_cons_outOfFuel hmg] at h; cases h

/-! ### Facts about the starting-slot scan -/

theorem gss_pure_fold {logs : List (List LogLine)}
    (hp : ∀ log ∈ logs, pureLog log = true) (acc : Nat) :
    getStartingSlot acc logs =
      .ok ((firstSlots logs).foldl
        (fun a n => if n < a || a == 0 then n else a) acc) := by
  induction logs generalizing acc with
  | nil => rfl
  | cons log rest ih =>
    cases log with
    | nil =>
      simp only [getStartingSlot, firstSlots, List.filterMap_cons, firstSlot?]
      exact ih (fun l hl => hp l (List.mem_cons_of_mem _ hl)) acc
    | cons x t =>
      cases x with
      | empty =>
        have := hp (LogLine.empty :: t) (List.mem_cons_self _ _)
        simp [pureLog, isRecordLine] at this
      | malformed raw =>
        have := hp (LogLine.malformed raw :: t) (List.mem_cons_self _ _)
        simp [pureLog, isRecordLine] at this
      | record d raw =>
        simp only [getStartingSlot, firstSlots, List.filterMap_cons, firstSlot?,
          List.foldl_cons]
        exact ih (fun l hl => hp l (List.mem_cons_of_mem _ hl)) (startingSlotStep acc d)

theorem minFold_aux {ns : List Nat} :
    ∀ {a : Nat}, a ≠ 0 → (∀ n ∈ ns, n ≠ 0) →
      ns.foldl (fun a n => if n < a || a == 0 then n else a) a =
        ns.foldl Nat.min a := by
  induction ns with
  | nil => intro a _ _; rfl
  | cons n t ih =>
    intro a ha h
    have hn : n ≠ 0 := h n (List.mem_cons_self _ _)
    have hstep : (if n < a || a == 0 then n else a) = Nat.min a n := by
      have ha' : (a == 0) = false := by simpa using ha
      by_cases hlt : n < a
      · simp [hlt, ha', Nat.min_eq_right (Nat.le_of_lt hlt)]
      · simp [hlt, ha', Nat.min_eq_left (Nat.le_of_not_lt hlt)]
    rw [List.foldl_cons, List.foldl_cons, hstep]
    refine ih ?_ (fun m hm => h m (List.mem_cons_of_mem _ hm))
    have : Nat.min a n = a ∨ Nat.min a n = n := by
      rcases le_total a n with h1 | h1
      · exact Or.inl (Nat.min_eq_left h1)
      · exact Or.inr (Nat.min_eq_right h1)
    rcases this with h2 | h2 <;> rw [h2]
    · exact ha
    · exact hn

theorem gss_min {logs : List (List LogLine)}
    (hp : ∀ log ∈ logs, pureLog log = true)
    (h0 : ∀ n ∈ firstSlots logs, n ≠ 0) :
    getStartingSlot 0 logs = .ok (minFirstKeySpec logs) := by
  rw [gss_pure_fold hp 0]
  congr 1
  cases hfs : firstSlots logs with
  | nil => simp [minFirstKeySpec, hfs]
  | cons x xs =>
    have hx0 : x ≠ 0 := h0 x (by rw [hfs]; exact List.mem_cons_self _ _)
    have hxs : ∀ n ∈ xs, n ≠ 0 :=
      fun n hn => h0 n (by rw [hfs]; exact List.mem_cons_of_mem _ hn)
    rw [List.foldl_cons]
    have hfirst : (if x < 0 || (0 : Nat) == 0 then x else 0) = x := by simp
    rw [hfirst, minFold_aux hx0 hxs]
    simp [minFirstKeySpec, hfs]

theorem foldlMin_le {xs : List Nat} :
    ∀ {a : Nat}, xs.foldl Nat.min a ≤ a ∧ ∀ x ∈ xs, xs.foldl Nat.min a ≤ x := by
  induction xs with
  | nil => exact fun {a} => ⟨le_refl _, fun x hx => (by cases hx)⟩
  | cons x t ih =>
    intro a
    rw [List.foldl_cons]
    obtain ⟨h1, h2⟩ := ih (a := Nat.min a x)
    refine ⟨le_trans h1 (Nat.min_le_left _ _), ?_⟩
    intro y hy
    rcases List.mem_cons.1 hy with rfl | hy'
    · exact le_trans h1 (Nat.min_le_right _ _)
    · exact h2 y hy'

theorem minFirstKeySpec_le {logs : List (List LogLine)} {n : Nat}
    (hn : n ∈ firstSlots logs) : minFirstKeySpec logs ≤ n := by
  cases hfs : firstSlots logs with
  | nil => rw [hfs] at hn; cases hn
  | cons x xs =>
    rw [hfs] at hn
    simp only [minFirstKeySpec, hfs]
    rcases List.mem_cons.1 hn with rfl | hn'
    · exact foldlMin_le.1
    · exact foldlMin_le.2 n hn'

theorem natMin_left {a b : Nat} (h : a ≤ b) : Nat.min a b = a :=
  Nat.min_eq_left h

theorem natMin_right {a b : Nat} (h : b ≤ a) : Nat.min a b = b :=
  Nat.min_eq_right h

theorem foldlMin_mem {xs : List Nat} :
    ∀ {a : Nat}, xs.foldl Nat.min a = a ∨ xs.foldl Nat.min a ∈ xs := by
  induction xs with
  | nil => exact fun {a} => Or.inl rfl
  | cons x t ih =>
    intro a
    rw [List.foldl_cons]
    rcases ih (a := Nat.min a x) with h | h
    · rcases le_total a x with h1 | h1
      · exact Or.inl (by rw [h, natMin_left h1])
      · exact Or.inr (by rw [h, natMin_right h1]; exact List.mem_cons_self _ _)
    · exact Or.inr (List.mem_cons_of_mem _ h)

theorem minFirstKeySpec_mem_or {logs : List (List LogLine)} :
    firstSlots logs = [] ∨ minFirstKeySpec logs ∈ firstSlots logs := by
  cases hfs : firstSlots logs with
  | nil => exact Or.inl rfl
  | cons x xs =>
    refine Or.inr ?_
    simp only [minFirstKeySpec, hfs]
    rcases @foldlMin_mem xs x with h | h
    · rw [h]; exact List.mem_cons_self _ _
    · exact List.mem_cons_of_mem _ h

theorem firstSlots_le_slots {logs : List (List LogLine)}
    (hp : ∀ log ∈ logs, pureLog log = true)
    (hm : ∀ log ∈ logs, monoLog log = true) :
    ∀ a ∈ segSlots logs, ∃ n ∈ firstSlots logs, n ≤ a := by
  intro a ha
  rcases List.mem_flatMap.1 ha with ⟨log, hlog, ha'⟩
  rcases List.mem_map.1 ha' with ⟨x, hx, rfl⟩
  have hxl : x ∈ log := (List.mem_filter.1 hx).1
  cases log with
  | nil => cases hxl
  | cons hd t =>
    have hhd : isRecordLine hd = true := (pureLog_cons (hp _ hlog)).1
    have hmem : lineSlot hd ∈ firstSlots (logs) := by
      refine List.mem_filterMap.2 ⟨hd :: t, hlog, ?_⟩
      cases hd with
      | record d raw => rfl
      | empty => simp [isRecordLine] at hhd
      | malformed raw => simp [isRecordLine] at hhd
    refine ⟨lineSlot hd, hmem, ?_⟩
    rcases List.mem_cons.1 hxl with rfl | hx'
    · exact le_refl _
    · exact monoLog_head_le (hm _ hlog) hx'

theorem firstSlots_mem_slots {logs : List (List LogLine)} :
    ∀ n ∈ firstSlots logs, n ∈ segSlots logs := by
  intro n hn
  rcases List.mem_filterMap.1 hn with ⟨log, hlog, hsome⟩
  cases log with
  | nil => cases hsome
  | cons hd t =>
    cases hd with
    | empty => cases hsome
    | malformed raw => cases hsome
    | record d raw =>
      cases hsome
      exact mem_segSlots hlog (List.mem_cons_self _ _) rfl

/-- The starting cursor produced by `getStartingSlot` (under nonzero first
keys) bounds every key of every segment of the archive. -/
theorem start_le_all {seg1 : List (List LogLine)}
    {rest : List (List (List LogLine))}
    (hp : ∀ seg ∈ seg1 :: rest, segPure seg)
    (hm : ∀ seg ∈ seg1 :: rest, segMono seg)
    (hx : segsOrdered (seg1 :: rest)) :
    ∀ seg ∈ seg1 :: rest, allSlotsGE (minFirstKeySpec seg1) seg := by
  intro seg hseg a ha
  rcases List.mem_cons.1 hseg with rfl | hseg'
  · rcases firstSlots_le_slots (hp seg (List.mem_cons_self _ _))
      (hm seg (List.mem_cons_self _ _)) a ha with ⟨n, hn, hna⟩
    exact le_trans (minFirstKeySpec_le hn) hna
  · rcases @minFirstKeySpec_mem_or seg1 with hnil | hmem
    · have : minFirstKeySpec seg1 = 0 := by simp [minFirstKeySpec, hnil]
      rw [this]
      exact Nat.zero_le _
    · have hms : minFirstKeySpec seg1 ∈ segSlots seg1 :=
        firstSlots_mem_slots _ hmem
      exact (List.pairwise_cons.1 hx).1 seg hseg' _ hms a ha

/-! ### Facts about the whole replay -/

theorem runSimulation_cons_ok {cfg : SubConfig} {fuel : Nat}
    {seg : List (List LogLine)} {rest : List (List (List LogLine))} {start : Nat}
    (hg : getStartingSlot 0 seg = .ok start) :
    runSimulation cfg fuel (seg :: rest) = runSegments cfg fuel start (seg :: rest) := by
  simp [runSimulation, hg]

theorem runSimulation_cons_err {cfg : SubConfig} {fuel : Nat}
    {seg : List (List LogLine)} {rest : List (List (List LogLine))}
    (hg : getStartingSlot 0 seg = .error ()) :
    runSimulation cfg fuel (seg :: rest) = .fail 0 [] := by
  simp [runSimulation, hg]

theorem sim_wf {cfg : SubConfig} {fuel : Nat} {segs : List (List (List LogLine))} :
    ∀ e ∈ (runSimulation cfg fuel segs).emitted, emissionWF cfg e := by
  cases segs with
  | nil => intro e he; cases he
  | cons seg rest =>
    cases hg : getStartingSlot 0 seg with
    | error u =>
      cases u
      rw [runSimulation_cons_err hg]
      intro e he
      cases he
    | ok start =>
      rw [runSimulation_cons_ok hg]
      exact segs_wf

theorem sim_zero {fuel : Nat} {segs : List (List (List LogLine))} :
    (runSimulation ⟨0, 0⟩ fuel segs).emitted = [] := by
  cases segs with
  | nil => rfl
  | cons seg rest =>
    cases hg : getStartingSlot 0 seg with
    | error u =>
      cases u
      rw [runSimulation_cons_err hg]
      rfl
    | ok start =>
      rw [runSimulation_cons_ok hg]
      exact segs_zero

theorem sim_erase {cfg cfg' : SubConfig} {fuel : Nat}
    {segs : List (List (List LogLine))} :
    (runSimulation cfg fuel segs).erase = (runSimulation cfg' fuel segs).erase := by
  cases segs with
  | nil => rfl
  | cons seg rest =>
    cases hg : getStartingSlot 0 seg with
    | error u =>
      cases u
      rw [runSimulation_cons_err hg, runSimulation_cons_err hg]
    | ok start =>
      rw [runSimulation_cons_ok hg, runSimulation_cons_ok hg]
      exact segs_erase

/-! ### Facts about the subscription session -/

theorem sessionIDs_eq (reqs : List Request) :
    ∀ st : SessionState,
      sessionIDs st reqs = List.range' st.nextSubID (subRequestCount reqs) := by
  induction reqs with
  | nil => intro st; rfl
  | cons r rest ih =>
    intro st
    cases r with
    | startSim => rfl
    | newPairSub =>
      simp only [sessionIDs, handleRequest, subRequestCount]
      rw [ih ⟨st.nextSubID + 1, st.nextSubID, st.swapsSubID⟩, List.range'_succ]
    | swapSub =>
      simp only [sessionIDs, handleRequest, subRequestCount]
      rw [ih ⟨st.nextSubID + 1, st.pairsSubID, st.nextSubID⟩, List.range'_succ]
    | unknown =>
      simp only [sessionIDs, handleRequest, subRequestCount]
      exact ih st

theorem range'_pairwise_lt (n : Nat) : ∀ s : Nat,
    List.Pairwise (fun a b => a < b) (List.range' s n) := by
  induction n with
  | zero => intro s; exact List.Pairwise.nil
  | succ n ih =>
    intro s
    rw [List.range'_succ]
    refine List.Pairwise.cons ?_ (ih (s + 1))
    intro b hb
    have := (List.mem_range'_1.1 hb).1
    omega

/-! ## The claims -/

/-- C1, counterexample: the claim as stated is false.  In this two-segment
archive every per-category log is non-decreasing — per segment and also
concatenated across segments (category 0: keys 5 then 6; category 1: keys
9 then 10) — yet the output is not non-decreasing across the segment
boundary: the cursor is at 10 when segment 2 starts, so segment 2's key-6
record is emitted right after segment 1's key-9 record. -/
theorem c1_ordering_counterexample :
    monoLog [LogLine.record ⟨5, true, false⟩ 0, LogLine.record ⟨6, true, false⟩ 2] = true ∧
    monoLog [LogLine.record ⟨9, true, false⟩ 1, LogLine.record ⟨10, true, false⟩ 3] = true ∧
    (∀ seg ∈ [[[LogLine.record ⟨5, true, false⟩ 0], [LogLine.record ⟨9, true, false⟩ 1]],
        [[LogLine.record ⟨6, true, false⟩ 2], [LogLine.record ⟨10, true, false⟩ 3]]],
      ∀ log ∈ seg, monoLog log = true ∧ pureLog log = true) ∧
    slotsSorted (SimRes.emitted (runSimulation ⟨1, 0⟩ 20
      [[[LogLine.record ⟨5, true, false⟩ 0], [LogLine.record ⟨9, true, false⟩ 1]],
       [[LogLine.record ⟨6, true, false⟩ 2], [LogLine.record ⟨10, true, false⟩ 3]]])) =
      false := by
  decide

/-- C1, amended: the ordering guarantee holds with the premise strengthened
to what the code actually requires: (1) across the whole (multi-segment)
output, temporal keys are non-decreasing provided every log is pure and
non-decreasing, every key of a later segment is at least every key of any
earlier segment, and the first segment's first-record keys are non-zero
(key 0 confuses `getStartingSlot`, see C4); (2) within one segment the
output is exactly the canonical merge: for each cursor value in order, the
records with that key in stream-declaration order, then log order — which
is the claimed determinism at equal keys. -/
theorem c1_ordering_amended :
    (∀ (cfg : SubConfig) (fuel : Nat) (segs : List (List (List LogLine)))
       (ce : Nat) (out : List Emission),
       (∀ seg ∈ segs, segPure seg) → (∀ seg ∈ segs, segMono seg) →
       segsOrdered segs →
       (∀ n ∈ firstSlots (segs.headD []), n ≠ 0) →
       runSimulation cfg fuel segs = .ok ce out → slotsSorted out = true) ∧
    (∀ (cfg : SubConfig) (fuel : Nat) (logs : List (List LogLine))
       (c0 ce : Nat) (fs : List StreamState) (out : List Emission),
       segPure logs → segMono logs → allSlotsGE c0 logs →
       runMergeLoop cfg fuel c0 (logs.map initStream) = .ok ce fs out →
       out = mergeSpecOut cfg c0 (ce + 1 - c0) logs) := by
  constructor
  · intro cfg fuel segs ce out hp hm hx h0 h
    cases segs with
    | nil => cases h; rfl
    | cons seg1 rest =>
      have hp1 : ∀ log ∈ seg1, pureLog log = true := hp seg1 (List.mem_cons_self _ _)
      cases hg : getStartingSlot 0 seg1 with
      | error u =>
        cases u
        rw [runSimulation_cons_err hg] at h
        cases h
      | ok start =>
        rw [runSimulation_cons_ok hg] at h
        have hgm := gss_min hp1 h0
        rw [hg] at hgm
        cases hgm
        exact (segs_sorted hp hm hx (start_le_all hp hm hx) h).1
  · intro cfg fuel logs c0 ce fs out hp hm hc h
    exact merge_tracks hp hm (initStreams_tracksAll hp hc) h

/-- C1, witness for the amended theorem at concrete inputs. -/
theorem c1_ordering_amended_witness :
    slotsSorted [(⟨"newPairNotification", 1, 1, 0⟩ : Emission)] = true ∧
    [(⟨"newPairNotification", 1, 1, 0⟩ : Emission)] =
      mergeSpecOut ⟨1, 0⟩ 1 1 [[LogLine.record ⟨1, true, false⟩ 0]] := by
  constructor
  · exact c1_ordering_amended.1 ⟨1, 0⟩ 5 [[[LogLine.record ⟨1, true, false⟩ 0]]] 1
      [⟨"newPairNotification", 1, 1, 0⟩]
      (by simp only [segPure]; decide) (by simp only [segMono]; decide)
      (by simp only [segsOrdered]; decide) (by decide) (by decide)
  · exact c1_ordering_amended.2 ⟨1, 0⟩ 5 [[LogLine.record ⟨1, true, false⟩ 0]] 1 1
      [⟨[], true, none, true⟩] [⟨"newPairNotification", 1, 1, 0⟩]
      (by simp only [segPure]; decide) (by simp only [segMono]; decide)
      (by simp only [allSlotsGE]; decide) (by decide)

/-- C2, counterexample: the claim's "if and only if" is false as stated.  A
stream that delivers one undecodable row and never closes its channel
never yields the end-of-stream sentinel, yet the merge loop terminates
(through the fatal decode-error return) instead of blocking. -/
theorem c2_termination_counterexample :
    neverYields ⟨[LogLine.malformed 0], false, none, false⟩ = true ∧
    runMergeLoop ⟨1, 0⟩ 5 0 [⟨[LogLine.malformed 0], false, none, false⟩] =
      .fail 0 [] := by
  decide

/-- C2, amended: for streams that deliver no undecodable rows (decode
errors exit the loop through the fatal path instead, see C3), the merge
loop behaves as claimed: (1) a normal exit happens exactly when every done
flag is set; (2) if every channel eventually closes, some fuel makes the
loop exit normally; (3) if some stream never yields its sentinel, the loop
never exits (normally or fatally) and instead reaches a blocked receive at
which it stays, with no further emissions, however much more fuel is
granted. -/
theorem c2_termination_amended :
    (∀ (cfg : SubConfig) (fuel c : Nat) (ss : List StreamState) (ce : Nat)
       (fs : List StreamState) (out : List Emission),
       runMergeLoop cfg fuel c ss = .ok ce fs out →
       fs.all (fun s => s.done) = true) ∧
    (∀ (cfg : SubConfig) (c : Nat) (ss : List StreamState),
       ssBufferOK ss = true → ssCloses ss = true → ssNoMalformed ss = true →
       ∃ fuel ce fs out, runMergeLoop cfg fuel c ss = .ok ce fs out) ∧
    (∀ (cfg : SubConfig) (c : Nat) (ss : List StreamState),
       ssBufferOK ss = true → ssNoMalformed ss = true →
       (∃ s ∈ ss, neverYields s = true) →
       (∀ fuel ce fs out, runMergeLoop cfg fuel c ss ≠ .ok ce fs out) ∧
       (∀ fuel ce out, runMergeLoop cfg fuel c ss ≠ .fail ce out) ∧
       (∃ fuel ce out, runMergeLoop cfg fuel c ss = .block ce out ∧
         ∀ f', fuel ≤ f' → runMergeLoop cfg f' c ss = .block ce out)) := by
  refine ⟨?_, ?_, ?_⟩
  · intro cfg fuel c ss ce fs out h
    exact merge_ok_all_done h
  · intro cfg c ss hb hcl hm
    cases hres : runMergeLoop cfg (fuelNeed c ss) c ss with
    | ok ce fs out => exact ⟨fuelNeed c ss, ce, fs, out, hres⟩
    | fail ce out => exact (merge_noFail hb hm hres).elim
    | block ce out => exact (merge_noBlock hb hcl hres).elim
    | outOfFuel out =>
      have := @merge_noFuel cfg _ _ _ hb (le_refl (fuelNeed c ss))
      rw [hres] at this
      cases this
  · intro cfg c ss hb hm hny
    refine ⟨fun fuel ce fs out h =>
        (merge_neverYields_notOkFail hb hm hny).1 ce fs out h,
      fun fuel ce out h => (merge_neverYields_notOkFail hb hm hny).2 ce out h, ?_⟩
    cases hres : runMergeLoop cfg (fuelNeed c ss) c ss with
    | ok ce fs out =>
      exact ((merge_neverYields_notOkFail hb hm hny).1 ce fs out hres).elim
    | fail ce out =>
      exact ((merge_neverYields_notOkFail hb hm hny).2 ce out hres).elim
    | block ce out =>
      exact ⟨fuelNeed c ss, ce, out, hres,
        fun f' hf' => merge_stable_block hres f' hf'⟩
    | outOfFuel out =>
      have := @merge_noFuel cfg _ _ _ hb (le_refl (fuelNeed c ss))
      rw [hres] at this
      cases this

/-- C2, witness for the amended theorem at concrete inputs. -/
theorem c2_termination_amended_witness :
    ([(⟨[], true, none, true⟩ : StreamState)].all (fun s => s.done) = true) ∧
    (∃ fuel ce fs out, runMergeLoop ⟨1, 0⟩ fuel 0
      [(⟨[], true, none, false⟩ : StreamState)] = .ok ce fs out) ∧
    (∃ fuel ce out, runMergeLoop ⟨1, 0⟩ fuel 0
        [(⟨[], false, none, false⟩ : StreamState)] = .block ce out ∧
      ∀ f', fuel ≤ f' → runMergeLoop ⟨1, 0⟩ f' 0
        [(⟨[], false, none, false⟩ : StreamState)] = .block ce out) := by
  refine ⟨?_, ?_, ?_⟩
  · exact c2_termination_amended.1 ⟨1, 0⟩ 3 0 [⟨[], true, none, false⟩] 0
      [⟨[], true, none, true⟩] [] (by decide)
  · exact c2_termination_amended.2.1 ⟨1, 0⟩ 0 [⟨[], true, none, false⟩]
      (by decide) (by decide) (by decide)
  · exact (c2_termination_amended.2.2 ⟨1, 0⟩ 0 [⟨[], false, none, false⟩]
      (by decide) (by decide) (by decide)).2.2

/-- C3: an undecodable row that is not shielded by an earlier zero-length
row in its log (so the merge is bound to encounter it) makes the whole
replay fail with the decode error, and no record with a temporal key
beyond the failure cursor is emitted from any stream, the healthy ones
included. -/
theorem c3_decode_error_fatal :
    ∀ (cfg : SubConfig) (fuel : Nat) (segs : List (List (List LogLine))),
      archiveFuel segs ≤ fuel →
      (∃ seg ∈ segs, ∃ log ∈ seg, unshieldedMalformed log = true) →
      ∃ cf out, runSimulation cfg fuel segs = .fail cf out ∧
        ∀ e ∈ out, e.slot ≤ cf := by
  intro cfg fuel segs hfl hu
  cases segs with
  | nil => rcases hu with ⟨seg, hseg, _⟩; cases hseg
  | cons seg rest =>
    cases hg : getStartingSlot 0 seg with
    | error u =>
      cases u
      exact ⟨0, [], runSimulation_cons_err hg, fun e he => (by cases he)⟩
    | ok start =>
      rw [runSimulation_cons_ok hg]
      rcases @segs_unshielded_fail cfg _ start _ hfl hu with ⟨cf, out, hf⟩
      refine ⟨cf, out, hf, ?_⟩
      have hle := @segs_emitted_le cfg fuel start (seg :: rest) cf (by rw [hf]; rfl)
      rw [hf] at hle
      exact hle

/-- C3, witness at a concrete archive: one log with a record at key 1
followed by an undecodable row. -/
theorem c3_decode_error_fatal_witness :
    ∃ cf out, runSimulation ⟨1, 0⟩ 5
        [[[LogLine.record ⟨1, true, false⟩ 0, LogLine.malformed 1]]] =
        .fail cf out ∧ ∀ e ∈ out, e.slot ≤ cf := by
  exact c3_decode_error_fatal ⟨1, 0⟩ 5
    [[[LogLine.record ⟨1, true, false⟩ 0, LogLine.malformed 1]]]
    (by decide) (by decide)

/-- C4, counterexample: the claim is false when a first record carries
temporal key 0.  Both logs have a first record (keys 0 and 7), so the
claimed initial cursor is the minimum 0; but `getStartingSlot` uses 0 as
its "unset" sentinel (`startingSlot == 0`), so the key-0 first record is
treated as unset and the scan returns 7. -/
theorem c4_starting_cursor_counterexample :
    getStartingSlot 0 [[LogLine.record ⟨0, true, false⟩ 0],
        [LogLine.record ⟨7, true, false⟩ 1]] = .ok 7 ∧
    minFirstKeySpec [[LogLine.record ⟨0, true, false⟩ 0],
        [LogLine.record ⟨7, true, false⟩ 1]] = 0 ∧
    (7 : Nat) ≠ 0 :=
  ⟨rfl, rfl, by decide⟩

/-- C4, amended: when every first segment's log is pure and non-empty and
every first-record key is non-zero, the initial cursor is exactly the
minimum first-record key, and that scan feeds the cursor of the whole
multi-segment run (it is computed from the first segment only). -/
theorem c4_starting_cursor_amended :
    ∀ (cfg : SubConfig) (fuel : Nat) (seg1 : List (List LogLine))
      (rest : List (List (List LogLine))),
      (∀ log ∈ seg1, pureLog log = true) → (∀ log ∈ seg1, log ≠ []) →
      (∀ n ∈ firstSlots seg1, n ≠ 0) →
      getStartingSlot 0 seg1 = .ok (minFirstKeySpec seg1) ∧
      runSimulation cfg fuel (seg1 :: rest) =
        runSegments cfg fuel (minFirstKeySpec seg1) (seg1 :: rest) := by
  intro cfg fuel seg1 rest hp _hne h0
  have hgm := gss_min hp h0
  exact ⟨hgm, runSimulation_cons_ok hgm⟩

/-- C4, witness at concrete inputs: first-record keys 2 and 3; the cursor
starts at 2. -/
theorem c4_starting_cursor_amended_witness :
    getStartingSlot 0 [[LogLine.record ⟨2, true, false⟩ 0],
        [LogLine.record ⟨3, true, false⟩ 1]] =
      .ok (minFirstKeySpec [[LogLine.record ⟨2, true, false⟩ 0],
        [LogLine.record ⟨3, true, false⟩ 1]]) ∧
    runSimulation ⟨1, 0⟩ 5 [[[LogLine.record ⟨2, true, false⟩ 0],
        [LogLine.record ⟨3, true, false⟩ 1]]] =
      runSegments ⟨1, 0⟩ 5 (minFirstKeySpec [[LogLine.record ⟨2, true, false⟩ 0],
        [LogLine.record ⟨3, true, false⟩ 1]])
        [[[LogLine.record ⟨2, true, false⟩ 0], [LogLine.record ⟨3, true, false⟩ 1]]] := by
  exact c4_starting_cursor_amended ⟨1, 0⟩ 5
    [[LogLine.record ⟨2, true, false⟩ 0], [LogLine.record ⟨3, true, false⟩ 1]] []
    (by decide) (by decide) (by decide)

/-- C5, counterexample: the claim is false for a record carrying both
discriminators.  The two emission `if`s are independent, so a single
decodable record with non-null `pair` and non-null `swap` produces two
output envelopes when both categories are subscribed. -/
theorem c5_routing_counterexample :
    runSimulation ⟨1, 2⟩ 9 [[[LogLine.record ⟨5, true, true⟩ 0]]] =
      .ok 5 [⟨"newPairNotification", 1, 5, 0⟩, ⟨"swapNotification", 2, 5, 0⟩] ∧
    ¬((SimRes.emitted (runSimulation ⟨1, 2⟩ 9
        [[[LogLine.record ⟨5, true, true⟩ 0]]])).length ≤ 1) := by
  decide

/-- C5, amended: a record with at most one discriminator present produces
at most one envelope, and every envelope's method matches a present
discriminator of the record; a record with both discriminators can
produce one envelope per category (at most two). -/
theorem c5_routing_amended :
    ∀ (cfg : SubConfig) (d : DataFormat) (raw : Nat),
      (¬(d.pair = true ∧ d.swap = true) → (emitsFor cfg d raw).length ≤ 1) ∧
      (∀ e ∈ emitsFor cfg d raw,
        (e.method = "newPairNotification" → d.pair = true) ∧
        (e.method = "swapNotification" → d.swap = true)) ∧
      (emitsFor cfg d raw).length ≤ 2 := by
  intro cfg d raw
  refine ⟨?_, ?_, ?_⟩
  · intro hnot
    unfold emitsFor
    by_cases hp : (cfg.pairsSubID != 0 && d.pair) = true <;>
      by_cases hs : (cfg.swapsSubID != 0 && d.swap) = true <;>
      simp [hp, hs]
    exact hnot ⟨(Bool.and_eq_true_iff.1 hp).2, (Bool.and_eq_true_iff.1 hs).2⟩
  · intro e he
    unfold emitsFor at he
    rcases List.mem_append.1 he with h' | h'
    · by_cases hp : (cfg.pairsSubID != 0 && d.pair) = true
      · rw [if_pos hp] at h'
        simp only [List.mem_singleton] at h'
        subst h'
        exact ⟨fun _ => (Bool.and_eq_true_iff.1 hp).2, fun hx => by simp at hx⟩
      · rw [if_neg hp] at h'
        cases h'
    · by_cases hs : (cfg.swapsSubID != 0 && d.swap) = true
      · rw [if_pos hs] at h'
        simp only [List.mem_singleton] at h'
        subst h'
        exact ⟨fun hx => by simp at hx, fun _ => (Bool.and_eq_true_iff.1 hs).2⟩
      · rw [if_neg hs] at h'
        cases h'
  · unfold emitsFor
    by_cases hp : (cfg.pairsSubID != 0 && d.pair) = true <;>
      by_cases hs : (cfg.swapsSubID != 0 && d.swap) = true <;>
      simp [hp, hs]

/-- C5, witness for the amended theorem: a pure pair record yields at most
one envelope. -/
theorem c5_routing_amended_witness :
    (emitsFor ⟨1, 0⟩ ⟨3, true, false⟩ 0).length ≤ 1 :=
  (c5_routing_amended ⟨1, 0⟩ ⟨3, true, false⟩ 0).1 (by decide)

/-- C6: (1) when the merge loop exits normally it has executed one tick at
every cursor value from its entry cursor to its final cursor, consecutive
and none skipped (ticks with no due records included); (2) a pulled record
whose key exceeds the cursor is stored as the stream's single lookahead
buffer, nothing being emitted for it in that tick; (3) no emission of a
tick carries a key above the tick's cursor. -/
theorem c6_cursor_increment :
    (∀ (cfg : SubConfig) (fuel c : Nat) (ss : List StreamState) (ce : Nat)
       (fs : List StreamState) (out : List Emission),
       runMergeLoop cfg fuel c ss = .ok ce fs out →
       mergeTrace cfg fuel c ss = List.range' c (ce + 1 - c)) ∧
    (∀ (cfg : SubConfig) (c : Nat) (d : DataFormat) (raw : Nat)
       (rest : List LogLine) (cl dn : Bool),
       c < d.slot →
       drainStream cfg c ⟨LogLine.record d raw :: rest, cl, none, dn⟩ =
         .ok ⟨rest, cl, some (LogLine.record d raw), dn⟩ []) ∧
    (∀ (cfg : SubConfig) (c : Nat) (ss ss' : List StreamState)
       (out : List Emission), ssBufferOK ss = true →
       tick cfg c ss = .ok ss' out → ∀ e ∈ out, e.slot ≤ c) := by
  refine ⟨?_, ?_, ?_⟩
  · intro cfg fuel c ss ce fs out h
    exact merge_traceEq h
  · intro cfg c d raw rest cl dn hlt
    simp [drainStream, drainList, hlt]
  · intro cfg c ss ss' out hb h e he
    exact tick_emitted_le hb e (by rw [h]; exact he)

/-- C6, witness at concrete inputs. -/
theorem c6_cursor_increment_witness :
    mergeTrace ⟨1, 0⟩ 5 1 ([[LogLine.record ⟨1, true, false⟩ 0]].map initStream) =
      List.range' 1 (1 + 1 - 1) ∧
    drainStream ⟨1, 0⟩ 0 ⟨[LogLine.record ⟨4, true, false⟩ 7], true, none, false⟩ =
      .ok ⟨[], true, some (LogLine.record ⟨4, true, false⟩ 7), false⟩ [] ∧
    ∀ e ∈ [(⟨"newPairNotification", 1, 1, 0⟩ : Emission)], e.slot ≤ 1 := by
  refine ⟨?_, ?_, ?_⟩
  · exact c6_cursor_increment.1 ⟨1, 0⟩ 5 1
      ([[LogLine.record ⟨1, true, false⟩ 0]].map initStream) 1
      [⟨[], true, none, true⟩] [⟨"newPairNotification", 1, 1, 0⟩] (by decide)
  · exact c6_cursor_increment.2.1 ⟨1, 0⟩ 0 ⟨4, true, false⟩ 7 [] true false
      (by decide)
  · exact c6_cursor_increment.2.2 ⟨1, 0⟩ 1
      ([[LogLine.record ⟨1, true, false⟩ 0]].map initStream)
      [⟨[], true, none, true⟩] [⟨"newPairNotification", 1, 1, 0⟩]
      (by decide) (by decide)

/-- C7: (1) when the two subscription ids differ (as the session handler
guarantees), a subscriber never receives an emission of the other
category: every emission tagged with the pair id is a pair notification
and every emission tagged with the swap id is a swap notification; (2)
with no subscriptions the replay result has the same control flow, final
cursor and outcome as under any configuration — it still drains all input
— but nothing is emitted. -/
theorem c7_subscription_isolation :
    (∀ (cfg : SubConfig) (fuel : Nat) (segs : List (List (List LogLine))),
       cfg.pairsSubID ≠ cfg.swapsSubID →
       ∀ e ∈ (runSimulation cfg fuel segs).emitted,
         (e.subscriptionID = cfg.pairsSubID → e.method = "newPairNotification") ∧
         (e.subscriptionID = cfg.swapsSubID → e.method = "swapNotification")) ∧
    (∀ (cfg : SubConfig) (fuel : Nat) (segs : List (List (List LogLine))),
       (runSimulation ⟨0, 0⟩ fuel segs).erase = (runSimulation cfg fuel segs).erase ∧
       (runSimulation ⟨0, 0⟩ fuel segs).emitted = []) := by
  constructor
  · intro cfg fuel segs hne e he
    rcases @sim_wf cfg fuel segs e he with
      ⟨hm1, hs1, _⟩ | ⟨hm2, hs2, _⟩
    · refine ⟨fun _ => hm1, fun hsw => ?_⟩
      exfalso
      exact hne (by rw [← hs1, hsw])
    · refine ⟨fun hpw => ?_, fun _ => hm2⟩
      exfalso
      exact hne (by rw [← hpw, hs2])
  · intro cfg fuel segs
    exact ⟨sim_erase, sim_zero⟩

/-- C7, witness at concrete inputs. -/
theorem c7_subscription_isolation_witness :
    ((⟨"newPairNotification", 1, 1, 0⟩ : Emission).subscriptionID = 1 →
      (⟨"newPairNotification", 1, 1, 0⟩ : Emission).method = "newPairNotification") ∧
    (runSimulation ⟨0, 0⟩ 5 [[[LogLine.record ⟨1, true, false⟩ 0]]]).erase =
      (runSimulation ⟨1, 2⟩ 5 [[[LogLine.record ⟨1, true, false⟩ 0]]]).erase ∧
    (runSimulation ⟨0, 0⟩ 5 [[[LogLine.record ⟨1, true, false⟩ 0]]]).emitted = [] := by
  refine ⟨?_, ?_⟩
  · exact ((c7_subscription_isolation.1 ⟨1, 2⟩ 5
      [[[LogLine.record ⟨1, true, false⟩ 0]]] (by decide)
      ⟨"newPairNotification", 1, 1, 0⟩ (by decide))).1
  · exact c7_subscription_isolation.2 ⟨1, 2⟩ 5 [[[LogLine.record ⟨1, true, false⟩ 0]]]

/-- C8: across consecutive segments of one replay the cursor is never
reset: once segment n's merge finishes at some cursor, the remainder of
the session is exactly a run of the remaining segments started from that
cursor. -/
theorem c8_cursor_continuity :
    ∀ (cfg : SubConfig) (fuel c : Nat) (seg : List (List LogLine))
      (rest : List (List (List LogLine))) (c' : Nat) (fs : List StreamState)
      (o : List Emission),
      runMergeLoop cfg fuel c (seg.map initStream) = .ok c' fs o →
      runSegments cfg fuel c (seg :: rest) =
        SimRes.prependOut o (runSegments cfg fuel c' rest) := by
  intro cfg fuel c seg rest c' fs o hm
  exact runSegments_cons_ok hm

/-- C8, witness at concrete inputs: the first segment finishes at cursor 1
and the rest of the run continues from 1. -/
theorem c8_cursor_continuity_witness :
    runSegments ⟨1, 0⟩ 5 1 [[[LogLine.record ⟨1, true, false⟩ 0]]] =
      SimRes.prependOut [⟨"newPairNotification", 1, 1, 0⟩]
        (runSegments ⟨1, 0⟩ 5 1 []) := by
  exact c8_cursor_continuity ⟨1, 0⟩ 5 1 [[LogLine.record ⟨1, true, false⟩ 0]] []
    1 [⟨[], true, none, true⟩] [⟨"newPairNotification", 1, 1, 0⟩] (by decide)

/-- C9: over one session the ids handed out to subscribe requests are the
consecutive integers starting at 1 (one per subscribe request served
before `startSimulation`), hence strictly increasing and never reused,
also when the same category subscribes repeatedly. -/
theorem c9_subscriber_ids :
    ∀ reqs : List Request,
      sessionIDs initialSession reqs = List.range' 1 (subRequestCount reqs) ∧
      List.Pairwise (fun a b => a < b) (sessionIDs initialSession reqs) ∧
      (sessionIDs initialSession reqs).length = subRequestCount reqs := by
  intro reqs
  have h := sessionIDs_eq reqs initialSession
  refine ⟨h, ?_, ?_⟩
  · rw [h]
    exact range'_pairwise_lt (subRequestCount reqs) 1
  · rw [h]
    exact List.length_range' 1 1 (subRequestCount reqs)

/-- C10, counterexample: the claim is false.  After the zero-length line in
the second log sets the done flag at cursor 1, the merge keeps draining
the stream on the next tick (the loop has no guard on done flags), so the
record that appears after the empty line (payload 3) is still emitted. -/
theorem c10_empty_line_counterexample :
    runSimulation ⟨1, 0⟩ 20
      [[[LogLine.record ⟨1, true, false⟩ 0, LogLine.record ⟨2, true, false⟩ 1],
        [LogLine.record ⟨1, true, false⟩ 2, LogLine.empty,
          LogLine.record ⟨1, true, false⟩ 3]]] =
      .ok 2 [⟨"newPairNotification", 1, 1, 0⟩, ⟨"newPairNotification", 1, 1, 2⟩,
        ⟨"newPairNotification", 1, 2, 1⟩, ⟨"newPairNotification", 1, 1, 3⟩] ∧
    ∃ e ∈ (runSimulation ⟨1, 0⟩ 20
      [[[LogLine.record ⟨1, true, false⟩ 0, LogLine.record ⟨2, true, false⟩ 1],
        [LogLine.record ⟨1, true, false⟩ 2, LogLine.empty,
          LogLine.record ⟨1, true, false⟩ 3]]]).emitted, e.raw = 3 := by
  decide

/-- C10, amended: a zero-length line is treated as the stream's
end-of-stream sentinel only for the current tick: it sets the done flag,
raises no error and ends the stream's processing for that tick with
nothing emitted, while the rows after it stay pending — the done flag does
not stop the stream from being drained again on later ticks, so such rows
can still be emitted unless the merge stops first. -/
theorem c10_empty_line_amended :
    ∀ (cfg : SubConfig) (c : Nat) (rest : List LogLine) (cl dn : Bool),
      drainStream cfg c ⟨LogLine.empty :: rest, cl, none, dn⟩ =
        .ok ⟨rest, cl, none, true⟩ [] := by
  intro cfg c rest cl dn
  simp [drainStream, drainList]

end SSim
